import Mathlib

/-!
Shallow embedding of the tag-index engine of `TagsForFiles.py` (classes
`FileRecord`, `TagsForFiles`, `Util`).  Python strings are modelled as
`List Char`; Python sets of strings as duplicate-free lists maintained by
`pySetAdd`; the filesystem as a list of existing paths; printing and the
GUI are ignored.  Fallible Python code (uncaught `KeyError` /
`AttributeError`) is modelled with `Except`.
-/

set_option maxRecDepth 4000

abbrev Str := List Char

/-- Python `str` whitespace (ASCII part), as used by `str.strip()` and
`str.split()` with no argument. -/
def isPySpace (c : Char) : Bool :=
  c = ' ' || c = '\t' || c = '\n' || c = '\x0d' || c = '\x0b' || c = '\x0c'

/-- Python `s.strip()` (ASCII whitespace). -/
def pyStrip (s : Str) : Str :=
  ((s.dropWhile isPySpace).reverse.dropWhile isPySpace).reverse

/-- Helper for `pySplitOn`: accumulator holds the current fragment reversed. -/
def splitOnAux (sep : Char) : Str → Str → List Str
  | [], acc => [acc.reverse]
  | c :: rest, acc =>
    if c = sep then acc.reverse :: splitOnAux sep rest []
    else splitOnAux sep rest (c :: acc)

/-- Python `s.split(sep)` for a one-character separator: keeps empty
fragments, `''.split(c) = ['']`. -/
def pySplitOn (sep : Char) (s : Str) : List Str :=
  splitOnAux sep s []

/-- Helper for `pySplitWs`: accumulator holds the current word reversed. -/
def splitWsAux : Str → Str → List Str
  | [], acc => if acc = [] then [] else [acc.reverse]
  | c :: rest, acc =>
    if isPySpace c then
      if acc = [] then splitWsAux rest []
      else acc.reverse :: splitWsAux rest []
    else splitWsAux rest (c :: acc)

/-- Python `s.split()` with no argument: splits on whitespace runs and
never yields empty tokens. -/
def pySplitWs (s : Str) : List Str :=
  splitWsAux s []

/-- `sep.join(xs)` for strings. -/
def pyJoinWith (sep : Str) : List Str → Str
  | [] => []
  | [x] => x
  | x :: y :: xs => x ++ sep ++ pyJoinWith sep (y :: xs)

/-- Helper for `pyReplace`.  In state `k+1` we are skipping the last `k+1`
characters of an occurrence of the pattern that has just been replaced;
in state `0` we scan for the next occurrence.  Structural on the string. -/
def replAux (p r : Str) : Nat → Str → Str
  | _, [] => []
  | 0, c :: rest =>
    if p.isPrefixOf (c :: rest) then r ++ replAux p r (p.length - 1) rest
    else c :: replAux p r 0 rest
  | k + 1, _ :: rest => replAux p r k rest

/-- Python `s.replace(p, r)` for a non-empty pattern `p`: replaces
non-overlapping occurrences left to right, without rescanning `r`. -/
def pyReplace (p r s : Str) : Str :=
  replAux p r 0 s

/-- The characters removed by `Util.transform_to_tag`
(`to_remove = '/,()\'"!&%;^$#@<>{}[]\\|?*~\x60'` in the source). -/
def to_remove : Str :=
  ['/', ',', '(', ')', '\x27', '"', '!', '&', '%', ';', '^', '$', '#', '@',
   '<', '>', '\x7b', '\x7d', '[', ']', '\\', '|', '?', '*', '~', '\x60']

/-- `Util.transform_to_tag`: lower-case, delete `to_remove` characters,
then the literal replacement cascade of the source, in source order. -/
def transform_to_tag (text : Str) : Str :=
  let tag := (text.map Char.toLower).filter (fun c => !(to_remove.contains c))
  let tag := pyReplace [' ', '-', ' '] ['-'] tag
  let tag := pyReplace [' ', ' ', ' ', ' '] ['-'] tag
  let tag := pyReplace [' ', ' ', ' '] ['-'] tag
  let tag := pyReplace [' ', ' '] ['-'] tag
  let tag := pyReplace [' '] ['-'] tag
  let tag := pyReplace ['-', '-', '-', '-', '-'] ['-'] tag
  let tag := pyReplace ['-', '-', '-', '-'] ['-'] tag
  let tag := pyReplace ['-', '-', '-'] ['-'] tag
  pyReplace ['-', '-'] ['-'] tag

/-- One step of the loop body of `Util.paragraph_wrap`; state is
`(out_list, build)`. -/
def wrapStep (numColumns : Nat) (st : List Str × Str) (s : Str) : List Str × Str :=
  if s.length = 0 then st
  else if st.2.length + s.length < numColumns then
    (st.1, st.2 ++ [' '] ++ pyStrip s)
  else if st.2 = [] then
    (st.1 ++ [[' '] ++ pyStrip s], st.2)
  else
    (st.1 ++ [pyStrip st.2], s)

/-- `Util.paragraph_wrap`. -/
def paragraph_wrap (text_to_reflow : Str) (num_columns : Nat) : Str :=
  let sub_strings := (pySplitOn ' ' text_to_reflow).filter (fun c => c.length > 0)
  let st := sub_strings.foldl (wrapStep num_columns) ([], [])
  let out_list := if st.2.length > 0 then st.1 ++ [pyStrip st.2] else st.1
  pyJoinWith ['\n'] out_list

/-- `Util.ends_with`. -/
def ends_with (filename : Str) (extensions : List Str) : Bool :=
  extensions.any (fun ext => ext.isSuffixOf filename)

example : transform_to_tag "England Expects".data = "england-expects".data := by decide

example :
    paragraph_wrap "england expects     every    man to    do his     duty".data 20
      = "england expects\nevery man to do his\nduty".data := by decide

/-! ### Path utilities (`ntpath` semantics, simplified: no drive letters) -/

/-- Path separators recognised by `os.path` on Windows. -/
def isSep (c : Char) : Bool := c = '\\' || c = '/'

/-- `os.path.split(p)`: split after the last separator; trailing
separators are stripped from the head unless the head is all separators. -/
def pySplitPath (p : Str) : Str × Str :=
  let tail := (p.reverse.takeWhile (fun c => !(isSep c))).reverse
  let head := p.take (p.length - tail.length)
  let head' := if head.all isSep then head
    else (head.reverse.dropWhile isSep).reverse
  (head', tail)

/-- `os.path.basename(p)`. -/
def pyBasename (p : Str) : Str := (pySplitPath p).2

/-- `os.path.dirname(p)`. -/
def pyDirname (p : Str) : Str := (pySplitPath p).1

/-- `os.path.join(a, b)` (Windows flavour, no drive letters): an absolute
`b` wins; otherwise a `'\\'` is inserted unless `a` is empty or already
ends with a separator. -/
def pyJoinPath (a b : Str) : Str :=
  if b.head?.any isSep then b
  else if a = [] then b
  else if (a.getLast?.any isSep) then a ++ b
  else a ++ '\\' :: b

/-- The extension part (with its dot) of `os.path.splitext(fn)` for a
file name without separators: the suffix from the last dot, provided some
non-dot character precedes that dot. -/
def pyExtDot (fn : Str) : Str :=
  let tail := fn.reverse.takeWhile (fun c => c ≠ '.')
  if tail.length = fn.length then []
  else
    let i := fn.length - tail.length - 1
    if (fn.take i).all (fun c => c = '.') then [] else fn.drop i

example : pyExtDot "a.mp3".data = ".mp3".data := by decide
example : pyExtDot "..txt".data = [] := by decide
example : pyExtDot "a...".data = ".".data := by decide
example : pySplitPath "a\\b\\c.mp3".data = ("a\\b".data, "c.mp3".data) := by decide

/-! ### Data model -/

/-- Python set-of-strings semantics on a duplicate-free list: `s.add(x)`. -/
def pySetAdd (s : List Str) (x : Str) : List Str :=
  if x ∈ s then s else s ++ [x]

/-- Python `s.update(xs)`. -/
def pySetUnion (s : List Str) (xs : List Str) : List Str :=
  xs.foldl pySetAdd s

/-- Replace the element at index `i` (no-op when out of range). -/
def listModify (l : List α) (i : Nat) (g : α → α) : List α :=
  match l, i with
  | [], _ => []
  | a :: rest, 0 => g a :: rest
  | a :: rest, i + 1 => a :: listModify rest i g

/-- `FileRecord.__init__`. -/
structure FileRecord where
  id : Nat
  path : Str
  file_exists : Bool
  comments : List Str
  tags : List Str
deriving DecidableEq, Repr

/-- The two fields of a `TagsForFiles` object. -/
structure TagsForFiles where
  tags : List Str
  file_records : List FileRecord
deriving DecidableEq, Repr

def TagsForFiles.empty : TagsForFiles := ⟨[], []⟩

/-- `TagsForFiles.add_path`: return the index of the existing record for
`path`, or create and append a fresh record.  `probe` models
`os.path.exists`. -/
def add_path (probe : Str → Bool) (tfs : TagsForFiles) (path : Str) :
    TagsForFiles × Nat :=
  match tfs.file_records.findIdx? (fun f => f.path == path) with
  | some i => (tfs, i)
  | none =>
    ({tfs with file_records := tfs.file_records ++
        [⟨tfs.file_records.length, path, probe path, [], []⟩]},
     tfs.file_records.length)

/-- Parser state of `TagsForFiles.import_text_data`: the index being
built, the two flags, and the current record (`None` initially),
identified by its position in `file_records`. -/
structure ParseState where
  tfs : TagsForFiles
  want_path_name : Bool
  want_tags : Bool
  record : Option Nat
deriving Repr

/-- One loop iteration of `import_text_data`.  Touching the fields of a
`None` record is Python's `AttributeError`, modelled as `Except.error`. -/
def import_step (probe : Str → Bool) (st : ParseState) (line : Str) :
    Except Str ParseState :=
  let stripped_line := pyStrip line
  if stripped_line.length = 0 then
    .ok {st with want_path_name := true, want_tags := false}
  else if stripped_line.head? = some '#' then
    if st.want_tags then
      match st.record with
      | some i =>
        let recs := listModify st.tfs.file_records i
          (fun f => {f with comments := f.comments ++ [stripped_line]})
        .ok {st with tfs := {st.tfs with file_records := recs}}
      | none => .error "AttributeError".data
    else .ok st
  else if st.want_path_name then
    let (tfs', i) := add_path probe st.tfs stripped_line
    .ok {st with tfs := tfs', record := some i,
                 want_path_name := false, want_tags := true}
  else if st.want_tags then
    match st.record with
    | some i =>
      let tags_list := (pySplitWs stripped_line).map pyStrip
      .ok {st with tfs :=
        { tags := pySetUnion st.tfs.tags tags_list,
          file_records := listModify st.tfs.file_records i
            (fun f => {f with tags := pySetUnion f.tags tags_list}) }}
    | none => .error "AttributeError".data
  else .ok st

/-- The loop of `import_text_data`. -/
def import_lines (probe : Str → Bool) (st : ParseState) :
    List Str → Except Str ParseState
  | [] => .ok st
  | l :: ls =>
    match import_step probe st l with
    | .ok st' => import_lines probe st' ls
    | .error e => .error e

/-- `TagsForFiles.import_text_data`. -/
def import_text_data (probe : Str → Bool) (tfs : TagsForFiles)
    (text_data : List Str) : Except Str TagsForFiles :=
  (import_lines probe ⟨tfs, true, false, none⟩ text_data).map (·.tfs)

/-! ### Serialisation -/

/-- Record order used by `self.file_records.sort(key=lambda r: r.path)`. -/
def pathLe (a b : FileRecord) : Prop := a.path ≤ b.path

instance : DecidableRel pathLe := fun a b =>
  inferInstanceAs (Decidable (a.path ≤ b.path))

instance : IsTotal FileRecord pathLe :=
  ⟨fun a b => le_total a.path b.path⟩

instance : IsTrans FileRecord pathLe :=
  ⟨fun _ _ _ h h' => le_trans h h'⟩

/-- `tags_list.sort()` on strings. -/
def sortStrs (l : List Str) : List Str :=
  l.insertionSort (· ≤ ·)

/-- The text written for one record by `write_file_records_to_file`:
path line, comments, wrapped sorted tags, and the separating blank line
(each `print` appends `'\n'`). -/
def recordText (f : FileRecord) : Str :=
  f.path ++ '\n' ::
    (f.comments.flatMap (fun c => c ++ ['\n'])) ++
    paragraph_wrap (pyJoinWith [' '] (sortStrs f.tags)) 72 ++ '\n' :: ['\n']

/-- `TagsForFiles.write_file_records_to_file`: sorts `file_records` in
place by path, then writes every record.  Returns the mutated index and
the file contents. -/
def write_file_records (tfs : TagsForFiles) : TagsForFiles × Str :=
  let sorted := tfs.file_records.insertionSort pathLe
  ({tfs with file_records := sorted}, sorted.flatMap recordText)

/-- `TagsForFiles.find_duplicated_filenames`: report the second and later
records whose basename was already seen. -/
def find_duplicated_filenames (tfs : TagsForFiles) : List Str :=
  (tfs.file_records.foldl
    (fun (st : List Str × List Str) f =>
      let b := pyBasename f.path
      if b ∈ st.2 then (st.1 ++ [f.path], st.2) else (st.1, st.2 ++ [b]))
    ([], [])).1

/-! ### Tag queries -/

/-- `m[t].add(p)` on the association-list model of the Python dict `m`;
`none` models `KeyError`. -/
def mapAddPath (m : List (Str × List Str)) (t p : Str) :
    Option (List (Str × List Str)) :=
  match m with
  | [] => none
  | (k, v) :: rest =>
    if k = t then some ((k, pySetAdd v p) :: rest)
    else (mapAddPath rest t p).map ((k, v) :: ·)

/-- The inner loop `for t in f.tags: m[t].add(f.path)`. -/
def addRecordTags (p : Str) : List (Str × List Str) → List Str →
    Option (List (Str × List Str))
  | m, [] => some m
  | m, t :: ts =>
    match mapAddPath m t p with
    | some m' => addRecordTags p m' ts
    | none => none

/-- The record loop of `build_tagged_files_map`. -/
def btfmRecords (only_existing : Bool) :
    List (Str × List Str) → List FileRecord →
    Except Str (List (Str × List Str))
  | m, [] => .ok m
  | m, f :: fs =>
    if only_existing && !f.file_exists then btfmRecords only_existing m fs
    else
      match addRecordTags f.path m f.tags with
      | some m' => btfmRecords only_existing m' fs
      | none => .error "KeyError".data

/-- `TagsForFiles.build_tagged_files_map`: keys are the index-level tags;
a record tag outside them raises an (uncaught) `KeyError`. -/
def build_tagged_files_map (tfs : TagsForFiles) (only_existing : Bool) :
    Except Str (List (Str × List Str)) :=
  btfmRecords only_existing (tfs.tags.map (fun t => (t, ([] : List Str))))
    tfs.file_records

/-- Dict lookup used by the comprehension `[tagged_files_map[t] for t in tags]`. -/
def lookupTag (m : List (Str × List Str)) (t : Str) : Option (List Str) :=
  (m.find? (fun kv => kv.1 == t)).map (·.2)

/-- The comprehension; `none` models the `KeyError` caught in
`get_matching_tagged_files`. -/
def lookupAll (m : List (Str × List Str)) : List Str → Option (List (List Str))
  | [] => some []
  | t :: ts =>
    match lookupTag m t with
    | some s => (lookupAll m ts).map (s :: ·)
    | none => none

/-- The pairwise intersection loop (`first`/`out`); result for `[]` is
irrelevant (that branch returns earlier in the source). -/
def interSets : List (List Str) → List Str
  | [] => []
  | s :: rest => rest.foldl (fun acc b => acc.filter (fun x => x ∈ b)) s

/-- `TagsForFiles.get_matching_tagged_files`.  A `tags` argument of `[]`
also covers Python's `None` (both return `[]`). -/
def get_matching_tagged_files (tfs : TagsForFiles) (tags : List Str)
    (only_existing : Bool := false) : Except Str (List Str) :=
  if tags.length = 0 then .ok []
  else
    match build_tagged_files_map tfs only_existing with
    | .error e => .error e
    | .ok m =>
      match lookupAll m tags with
      | none => .ok []
      | some sets => .ok (interSets sets)

/-! ### Simple record operations -/

/-- `TagsForFiles.get_missing_files`. -/
def get_missing_files (tfs : TagsForFiles) : List Str :=
  (tfs.file_records.filter (fun f => !f.file_exists)).map (·.path)

/-- `TagsForFiles.prune`. -/
def prune (tfs : TagsForFiles) : TagsForFiles :=
  {tfs with file_records := tfs.file_records.filter (fun f => f.file_exists)}

/-- `TagsForFiles.clean_all_tags`: rebuild every record's tag set from
the normalised tags.  The index-level `tags` field is not touched. -/
def clean_all_tags (tfs : TagsForFiles) : TagsForFiles :=
  {tfs with file_records := tfs.file_records.map (fun f =>
    {f with tags := f.tags.foldl (fun nt t => pySetAdd nt (transform_to_tag t)) []})}

/-- `TagsForFiles.extract_all_tags`, with `Util.extract_tags` (the
TinyTag metadata call) abstracted as `extractor`.  The index-level `tags`
field is not touched. -/
def extract_all_tags (extractor : Str → List Str) (tfs : TagsForFiles) :
    TagsForFiles :=
  {tfs with file_records := tfs.file_records.map (fun f =>
    if f.file_exists then {f with tags := pySetUnion f.tags (extractor f.path)} else f)}

/-- `TagsForFiles.replace_tag`. -/
def replace_tag (tfs : TagsForFiles) (target repl : Str) : TagsForFiles :=
  let recs := tfs.file_records.map (fun f =>
    if target ∈ f.tags then {f with tags := pySetAdd (f.tags.erase target) repl}
    else f)
  let tags := if target ∈ tfs.tags then pySetAdd (tfs.tags.erase target) repl
    else tfs.tags
  ⟨tags, recs⟩

/-- `TagsForFiles.count_tags` (tally loop; descending sort by count). -/
def count_tags (tfs : TagsForFiles) : List (Str × Nat) :=
  let counts := tfs.file_records.foldl (fun m f =>
    f.tags.foldl (fun (m : List (Str × Nat)) t =>
      match m.find? (fun kv => kv.1 == t) with
      | some _ => m.map (fun kv => if kv.1 == t then (kv.1, kv.2 + 1) else kv)
      | none => m ++ [(t, 1)]) m) []
  counts.insertionSort (fun a b => b.2 ≤ a.2)

/-! ### Untracked scan -/

/-- Per-filename body of the walk loop in `TagsForFiles.find_untracked`:
first the encountered-extension bookkeeping, then the suffix filter and
the known-path check. -/
def untrackedStep (known exts : List Str) (dir_path : Str)
    (st : List Str × List Str) (filename : Str) : List Str × List Str :=
  let extDot := pyExtDot filename
  let st :=
    if extDot.length > 0 then
      let ext := extDot.drop 1
      if ext ∈ exts then st else (st.1, pySetAdd st.2 ext)
    else st
  if ends_with filename exts then
    let path := pyJoinPath dir_path filename
    if path ∈ known then st else (st.1 ++ [path], st.2)
  else st

/-- `TagsForFiles.find_untracked`, with the `os.walk` generator supplied
as data (`(dir_path, filenames)` pairs; `dir_names` is unused by the
source).  Returns the untracked list (written to the `.m3u` playlist)
and the encountered-but-unfiltered extension set (printed). -/
def find_untracked (tfs : TagsForFiles) (walk : List (Str × List Str))
    (extensions : List Str) : List Str × List Str :=
  let known_files := tfs.file_records.foldl (fun s f => pySetAdd s f.path) []
  walk.foldl (fun st rec =>
    rec.2.foldl (untrackedStep known_files extensions rec.1) st) ([], [])

/-! ### Moving tagged files -/

/-- `os.path.dirname(p).split('\\')[-1]`. -/
def fileDirOf (p : Str) : Str :=
  ((pySplitOn '\\' (pyDirname p)).getLast?).getD []

/-- Result of `move_if_tagged`: the filesystem after the moves, the
mutated index, and the reported `moved` / `requested` counts. -/
structure MoveResult where
  fs : List Str
  tfs : TagsForFiles
  n_moved : Nat
  n_requested : Nat
deriving Repr

/-- Selection test of the first loop of `move_if_tagged`. -/
def moveSelected (ttag ddir : Str) (f : FileRecord) : Bool :=
  f.tags.contains ttag && fileDirOf f.path != ddir

/-- The second loop of `move_if_tagged` over the `to_move` list: threads
the filesystem and the moved count, and yields each record's resulting
path (`dst` on a successful `shutil.move`, the old path on a collision). -/
def movePhase2 (dest_folder : Str) (fs : List Str) (n : Nat) :
    List FileRecord → List Str × Nat × List Str
  | [] => (fs, n, [])
  | f :: rest =>
    let file_name := pyBasename f.path
    let dst := pyJoinPath dest_folder file_name
    if dst ∈ fs then
      let out := movePhase2 dest_folder fs n rest
      (out.1, out.2.1, f.path :: out.2.2)
    else
      let out := movePhase2 dest_folder
        (dst :: fs.filter (fun q => q ≠ f.path)) (n + 1) rest
      (out.1, out.2.1, dst :: out.2.2)

/-- Write the resulting paths of the selected records back into the
record list (the Python code mutates the shared record objects). -/
def patchMoved (sel : FileRecord → Bool) :
    List FileRecord → List Str → List FileRecord
  | [], _ => []
  | f :: rest, [] => f :: patchMoved sel rest []
  | f :: rest, p :: ps' =>
    if sel f then {f with path := p} :: patchMoved sel rest ps'
    else f :: patchMoved sel rest (p :: ps')

/-- `TagsForFiles.move_if_tagged`; `md` is `main_data_directory` and `fs`
the set of existing filesystem paths. -/
def move_if_tagged (fs : List Str) (md : Str) (tfs : TagsForFiles)
    (ttag ddir : Str) : MoveResult :=
  let dest_folder := pyJoinPath md ddir
  let fs := if dest_folder ∈ fs then fs else dest_folder :: fs
  let to_move := tfs.file_records.filter (moveSelected ttag ddir)
  let out := movePhase2 dest_folder fs 0 to_move
  let recs := patchMoved (moveSelected ttag ddir) tfs.file_records out.2.2
  ⟨out.1, {tfs with file_records := recs}, out.2.1, to_move.length⟩

/-! ### Operation sequences (for the global-tag-set invariant) -/

/-- The mutating index operations that claim C3 quantifies over, minus
`clean_all_tags` and `extract_all_tags` (see `C3_counterexample`). -/
inductive IndexOp
  | importData (probe : Str → Bool) (lines : List Str)
  | addPath (probe : Str → Bool) (p : Str)
  | replaceTag (target repl : Str)
  | pruneOp
  | moveIfTagged (fs : List Str) (md ttag ddir : Str)

/-- Apply one operation (an import that raises leaves the index as is;
by `C9_theorem` it never raises). -/
def applyOp (tfs : TagsForFiles) : IndexOp → TagsForFiles
  | .importData probe lines =>
    match import_text_data probe tfs lines with
    | .ok t => t
    | .error _ => tfs
  | .addPath probe p => (add_path probe tfs p).1
  | .replaceTag t r => replace_tag tfs t r
  | .pruneOp => prune tfs
  | .moveIfTagged fs md t d => (move_if_tagged fs md tfs t d).tfs

/-- `Index.tags` is a superset of every record's tag set. -/
def TagsSuperset (tfs : TagsForFiles) : Prop :=
  ∀ f ∈ tfs.file_records, ∀ t ∈ f.tags, t ∈ tfs.tags

instance : DecidablePred TagsSuperset := fun tfs =>
  inferInstanceAs (Decidable (∀ f ∈ tfs.file_records, ∀ t ∈ f.tags, t ∈ tfs.tags))

/-! ### Generic string lemmas -/

/-- A token with no Python whitespace in it. -/
def wsFree (s : Str) : Prop := ∀ c ∈ s, isPySpace c = false

instance : DecidablePred wsFree := fun s =>
  inferInstanceAs (Decidable (∀ c ∈ s, isPySpace c = false))

theorem wsFree_nil : wsFree [] := by intro c hc; cases hc

theorem wsFree_append {a b : Str} (ha : wsFree a) (hb : wsFree b) :
    wsFree (a ++ b) := by
  intro c hc
  rcases List.mem_append.mp hc with h | h
  · exact ha c h
  · exact hb c h

theorem pyStrip_eq_self {s : Str} (h1 : ∀ c, s.head? = some c → isPySpace c = false)
    (h2 : ∀ c, s.getLast? = some c → isPySpace c = false) : pyStrip s = s := by
  unfold pyStrip
  have hd : s.dropWhile isPySpace = s := by
    cases s with
    | nil => rfl
    | cons a t =>
      rw [List.dropWhile_cons, h1 a rfl]
      simp
  rw [hd]
  have hr : s.reverse.dropWhile isPySpace = s.reverse := by
    cases hrev : s.reverse with
    | nil => rfl
    | cons a t =>
      rw [List.dropWhile_cons]
      have : s.getLast? = some a := by
        rw [← List.head?_reverse, hrev]; rfl
      rw [h2 a this]
      simp
  rw [hr, List.reverse_reverse]

theorem pyStrip_cons_space {s : Str}
    (h1 : ∀ c, s.head? = some c → isPySpace c = false)
    (h2 : ∀ c, s.getLast? = some c → isPySpace c = false) :
    pyStrip (' ' :: s) = s := by
  unfold pyStrip
  rw [List.dropWhile_cons]
  norm_num [isPySpace]
  have hd : s.dropWhile isPySpace = s := by
    cases s with
    | nil => rfl
    | cons a t =>
      rw [List.dropWhile_cons, h1 a rfl]
      simp
  rw [hd]
  have hr : s.reverse.dropWhile isPySpace = s.reverse := by
    cases hrev : s.reverse with
    | nil => rfl
    | cons a t =>
      rw [List.dropWhile_cons]
      have : s.getLast? = some a := by
        rw [← List.head?_reverse, hrev]; rfl
      rw [h2 a this]
      simp
  rw [hr, List.reverse_reverse]

/-- A whitespace-free non-empty token is fixed by `strip`. -/
theorem pyStrip_wsFree {t : Str} (h : wsFree t) : pyStrip t = t := by
  apply pyStrip_eq_self
  · intro c hc
    exact h c (List.mem_of_mem_head? (by rw [hc]; exact rfl))
  · intro c hc
    exact h c (List.mem_of_mem_getLast? (by rw [hc]; exact rfl))

/-! ### Character lemmas -/

theorem char_toNat_ofNat {n : Nat} (h : n < 0xD800) : (Char.ofNat n).toNat = n := by
  unfold Char.ofNat
  rw [dif_pos (Or.inl h)]
  simp [Char.ofNatAux, Char.toNat, UInt32.toNat, BitVec.toNat_ofNatLt]

theorem toLower_eq (c : Char) :
    Char.toLower c =
      if 65 ≤ c.toNat ∧ c.toNat ≤ 90 then Char.ofNat (c.toNat + 32) else c := by
  unfold Char.toLower
  rfl

theorem toLower_toNat (c : Char) :
    (Char.toLower c).toNat =
      if 65 ≤ c.toNat ∧ c.toNat ≤ 90 then c.toNat + 32 else c.toNat := by
  rw [toLower_eq]
  by_cases h : 65 ≤ c.toNat ∧ c.toNat ≤ 90
  · rw [if_pos h, if_pos h, char_toNat_ofNat (by omega)]
  · rw [if_neg h, if_neg h]

theorem toLower_idem (c : Char) : Char.toLower (Char.toLower c) = Char.toLower c := by
  rw [toLower_eq (Char.toLower c), toLower_toNat c]
  by_cases h : 65 ≤ c.toNat ∧ c.toNat ≤ 90
  · rw [if_pos h, if_neg (by omega)]
  · rw [if_neg h, if_neg h]

theorem char_toNat_injective {a b : Char} (h : a.toNat = b.toNat) : a = b :=
  Char.ext (UInt32.eq_of_toBitVec_eq (BitVec.eq_of_toNat_eq h))

theorem toLower_ne_of_toNat_ne {c : Char} {d : Char}
    (hd : d.toNat < 65) (h : c ≠ d) :
    Char.toLower c ≠ d := by
  intro he
  have hn := toLower_toNat c
  rw [he] at hn
  by_cases hc : 65 ≤ c.toNat ∧ c.toNat ≤ 90
  · rw [if_pos hc] at hn; omega
  · rw [if_neg hc] at hn
    exact h (char_toNat_injective hn.symm)

/-- The result of `toLower` is never an ASCII upper-case letter
(codepoints 65–90). -/
theorem toLower_not_upper (c : Char) :
    (Char.toLower c).toNat < 65 ∨ 90 < (Char.toLower c).toNat := by
  have h := toLower_toNat c
  by_cases hc : 65 ≤ c.toNat ∧ c.toNat ≤ 90
  · rw [if_pos hc] at h; omega
  · rw [if_neg hc] at h; omega

/-! ### `pyReplace` lemmas -/

/-- A replacement whose pattern contains a character absent from the
string is the identity. -/
theorem replAux_eq_self {p r s : Str} {c : Char} (hc : c ∈ p) (hs : c ∉ s) :
    replAux p r 0 s = s := by
  induction s with
  | nil => rfl
  | cons a rest ih =>
    rw [replAux]
    have hpre : p.isPrefixOf (a :: rest) = false := by
      rw [Bool.eq_false_iff]
      intro hp
      exact hs ((List.isPrefixOf_iff_prefix.mp hp).subset hc)
    rw [hpre]
    simp only [Bool.false_eq_true, if_false]
    rw [ih (fun h => hs (List.mem_cons_of_mem a h))]

/-- Every character of a replacement result comes from the string or from
the replacement text. -/
theorem mem_replAux {p r : Str} {c : Char} :
    ∀ {k : Nat} {s : Str}, c ∈ replAux p r k s → c ∈ s ∨ c ∈ r := by
  intro k s
  induction s generalizing k with
  | nil =>
    intro h
    simp only [replAux] at h
    exact absurd h (List.not_mem_nil c)
  | cons a rest ih =>
    intro h
    cases k with
    | zero =>
      rw [replAux] at h
      by_cases hp : p.isPrefixOf (a :: rest)
      · rw [if_pos hp] at h
        rcases List.mem_append.mp h with h | h
        · exact Or.inr h
        · rcases ih h with h | h
          · exact Or.inl (List.mem_cons_of_mem a h)
          · exact Or.inr h
      · rw [if_neg hp] at h
        rcases List.mem_cons.mp h with h | h
        · exact Or.inl (h ▸ List.mem_cons_self a rest)
        · rcases ih h with h | h
          · exact Or.inl (List.mem_cons_of_mem a h)
          · exact Or.inr h
    | succ k =>
      rw [replAux] at h
      rcases ih h with h | h
      · exact Or.inl (List.mem_cons_of_mem a h)
      · exact Or.inr h

/-! ### Claim C4: normalisation idempotence -/

/-- No space and no hyphen occurs in the string. -/
def noSpaceHyphen (s : Str) : Prop := ∀ c ∈ s, c ≠ ' ' ∧ c ≠ '-'

instance : DecidablePred noSpaceHyphen := fun s =>
  inferInstanceAs (Decidable (∀ c ∈ s, c ≠ ' ' ∧ c ≠ '-'))

theorem transform_eq_base {s : Str} (h : noSpaceHyphen s) :
    transform_to_tag s =
      (s.map Char.toLower).filter (fun c => !(to_remove.contains c)) := by
  have hbase : noSpaceHyphen
      ((s.map Char.toLower).filter (fun c => !(to_remove.contains c))) := by
    intro c hc
    have hc' := List.mem_of_mem_filter hc
    rcases List.mem_map.mp hc' with ⟨d, hd, rfl⟩
    exact ⟨toLower_ne_of_toNat_ne (by decide) (h d hd).1,
           toLower_ne_of_toNat_ne (by decide) (h d hd).2⟩
  simp only [transform_to_tag, pyReplace]
  rw [replAux_eq_self (List.mem_cons_self ' ' _)
        (fun hm => (hbase ' ' hm).1 rfl)]
  rw [replAux_eq_self (List.mem_cons_self ' ' _)
        (fun hm => (hbase ' ' hm).1 rfl)]
  rw [replAux_eq_self (List.mem_cons_self ' ' _)
        (fun hm => (hbase ' ' hm).1 rfl)]
  rw [replAux_eq_self (List.mem_cons_self ' ' _)
        (fun hm => (hbase ' ' hm).1 rfl)]
  rw [replAux_eq_self (List.mem_cons_self ' ' _)
        (fun hm => (hbase ' ' hm).1 rfl)]
  rw [replAux_eq_self (List.mem_cons_self '-' _)
        (fun hm => (hbase '-' hm).2 rfl)]
  rw [replAux_eq_self (List.mem_cons_self '-' _)
        (fun hm => (hbase '-' hm).2 rfl)]
  rw [replAux_eq_self (List.mem_cons_self '-' _)
        (fun hm => (hbase '-' hm).2 rfl)]
  rw [replAux_eq_self (List.mem_cons_self '-' _)
        (fun hm => (hbase '-' hm).2 rfl)]

theorem noSpaceHyphen_base {s : Str} (h : noSpaceHyphen s) :
    noSpaceHyphen
      ((s.map Char.toLower).filter (fun c => !(to_remove.contains c))) := by
  intro c hc
  have hc' := List.mem_of_mem_filter hc
  rcases List.mem_map.mp hc' with ⟨d, hd, rfl⟩
  exact ⟨toLower_ne_of_toNat_ne (by decide) (h d hd).1,
         toLower_ne_of_toNat_ne (by decide) (h d hd).2⟩

theorem transform_base_fixed {s : Str} (h : noSpaceHyphen s) :
    transform_to_tag
        ((s.map Char.toLower).filter (fun c => !(to_remove.contains c))) =
      (s.map Char.toLower).filter (fun c => !(to_remove.contains c)) := by
  rw [transform_eq_base (noSpaceHyphen_base h)]
  have hmap : ((s.map Char.toLower).filter
      (fun c => !(to_remove.contains c))).map Char.toLower =
      (s.map Char.toLower).filter (fun c => !(to_remove.contains c)) := by
    have hmc : ∀ a ∈ (s.map Char.toLower).filter (fun c => !(to_remove.contains c)),
        Char.toLower a = id a := by
      intro a ha
      rcases List.mem_map.mp (List.mem_of_mem_filter ha) with ⟨d, _, rfl⟩
      exact toLower_idem d
    rw [List.map_congr_left hmc, List.map_id]
  rw [hmap, List.filter_eq_self.mpr]
  intro a ha
  exact (List.mem_filter.mp ha).2

/-- C4, corrected: `transform_to_tag` is idempotent on every string that
contains neither a space nor a hyphen.  (On strings with long space or
hyphen runs idempotence fails, see `C4_counterexample`.) -/
theorem C4_theorem (s : Str) (h : noSpaceHyphen s) :
    transform_to_tag (transform_to_tag s) = transform_to_tag s := by
  rw [transform_eq_base h]
  exact transform_base_fixed h

/-- C4 witness: the amended idempotence at the concrete input `"AbC!"`. -/
theorem C4_witness :
    transform_to_tag (transform_to_tag "AbC!".data) = transform_to_tag "AbC!".data :=
  C4_theorem "AbC!".data (by decide)

/-- C4 counterexample: on a run of 39 hyphens the replacement cascade of
`transform_to_tag` leaves `"--"`, which a second application collapses to
`"-"`: the function is not idempotent. -/
theorem C4_counterexample :
    transform_to_tag (transform_to_tag (List.replicate 39 '-')) ≠
        transform_to_tag (List.replicate 39 '-') ∧
      transform_to_tag (List.replicate 39 '-') = ['-', '-'] ∧
      transform_to_tag (transform_to_tag (List.replicate 39 '-')) = ['-'] := by
  refine ⟨?_, by decide, by decide⟩
  decide

/-! ### Claim C7: which characters does the normaliser remove? -/

/-- Every character of `transform_to_tag s` either survives from the
lower-cased, punctuation-filtered input or is a `'-'` introduced by the
replacement cascade. -/
theorem mem_transform_to_tag {s : Str} {c : Char} (h : c ∈ transform_to_tag s) :
    c ∈ (s.map Char.toLower).filter (fun c => !(to_remove.contains c)) ∨ c = '-' := by
  have lift : ∀ {x : Str}, c ∈ replAux ['-'] ['-'] 0 x → c ∈ x ∨ c = '-' := by
    intro x hx
    rcases mem_replAux hx with hx | hx
    · exact Or.inl hx
    · exact Or.inr (List.mem_singleton.mp hx)
  simp only [transform_to_tag, pyReplace] at h
  rcases mem_replAux h with h | h
  rotate_left
  · exact Or.inr (List.mem_singleton.mp h)
  rcases mem_replAux h with h | h
  rotate_left
  · exact Or.inr (List.mem_singleton.mp h)
  rcases mem_replAux h with h | h
  rotate_left
  · exact Or.inr (List.mem_singleton.mp h)
  rcases mem_replAux h with h | h
  rotate_left
  · exact Or.inr (List.mem_singleton.mp h)
  rcases mem_replAux h with h | h
  rotate_left
  · exact Or.inr (List.mem_singleton.mp h)
  rcases mem_replAux h with h | h
  rotate_left
  · exact Or.inr (List.mem_singleton.mp h)
  rcases mem_replAux h with h | h
  rotate_left
  · exact Or.inr (List.mem_singleton.mp h)
  rcases mem_replAux h with h | h
  rotate_left
  · exact Or.inr (List.mem_singleton.mp h)
  rcases mem_replAux h with h | h
  rotate_left
  · exact Or.inr (List.mem_singleton.mp h)
  exact Or.inl h

/-- C7, corrected: `transform_to_tag` removes every character of the
fixed punctuation set `to_remove` and leaves no ASCII upper-case letter,
but it does **not** remove `'\r'`, `'\t'`, `'\n'`
(see `C7_counterexample`). -/
theorem C7_theorem (s : Str) (c : Char) (h : c ∈ transform_to_tag s) :
    c ∉ to_remove ∧ (c.toNat < 65 ∨ 90 < c.toNat) := by
  rcases mem_transform_to_tag h with h | rfl
  · rcases List.mem_filter.mp h with ⟨hmem, hkeep⟩
    constructor
    · intro habs
      rw [Bool.not_eq_eq_eq_not, Bool.not_true] at hkeep
      have h2 : to_remove.contains c = true := List.elem_iff.mpr habs
      rw [h2] at hkeep
      exact Bool.noConfusion hkeep
    · rcases List.mem_map.mp hmem with ⟨d, _, rfl⟩
      exact toLower_not_upper d
  · exact ⟨by decide, by decide⟩

/-- C7 witness: the corrected removal property at `s = "A/b"`, `c = 'a'`. -/
theorem C7_witness :
    'a' ∉ to_remove ∧ ('a'.toNat < 65 ∨ 90 < 'a'.toNat) :=
  C7_theorem "A/b".data 'a' (by decide)

/-- C7 counterexample: tab (and likewise CR and LF) is *not* removed:
`transform_to_tag "a\tb" = "a\tb"`, which still contains `'\t'`. -/
theorem C7_counterexample :
    transform_to_tag ['a', '\t', 'b'] = ['a', '\t', 'b'] ∧
      '\t' ∈ transform_to_tag ['a', '\t', 'b'] ∧
      '\x0d' ∈ transform_to_tag ['x', '\x0d'] ∧
      '\n' ∈ transform_to_tag ['x', '\n'] := by
  refine ⟨by decide, by decide, by decide, by decide⟩

/-! ### Python-set and list-update lemmas -/

theorem mem_pySetAdd {s : List Str} {x y : Str} :
    y ∈ pySetAdd s x ↔ y ∈ s ∨ y = x := by
  unfold pySetAdd
  by_cases h : x ∈ s
  · rw [if_pos h]
    constructor
    · exact Or.inl
    · rintro (hy | rfl)
      · exact hy
      · exact h
  · rw [if_neg h]
    simp

theorem mem_pySetUnion {s : List Str} {xs : List Str} {y : Str} :
    y ∈ pySetUnion s xs ↔ y ∈ s ∨ y ∈ xs := by
  induction xs generalizing s with
  | nil => simp [pySetUnion]
  | cons x rest ih =>
    show y ∈ pySetUnion (pySetAdd s x) rest ↔ _
    rw [ih, mem_pySetAdd]
    constructor
    · rintro ((h | rfl) | h)
      · exact Or.inl h
      · exact Or.inr (List.mem_cons_self _ _)
      · exact Or.inr (List.mem_cons_of_mem _ h)
    · rintro (h | h)
      · exact Or.inl (Or.inl h)
      · rcases List.mem_cons.mp h with rfl | h
        · exact Or.inl (Or.inr rfl)
        · exact Or.inr h

theorem nodup_pySetAdd {s : List Str} {x : Str} (h : s.Nodup) :
    (pySetAdd s x).Nodup := by
  unfold pySetAdd
  by_cases hx : x ∈ s
  · rw [if_pos hx]; exact h
  · rw [if_neg hx]
    simpa [List.nodup_append] using ⟨h, hx⟩

theorem nodup_pySetUnion {s : List Str} {xs : List Str} (h : s.Nodup) :
    (pySetUnion s xs).Nodup := by
  induction xs generalizing s with
  | nil => exact h
  | cons x rest ih => exact ih (nodup_pySetAdd h)

theorem listModify_eq_of_lt {l : List α} {i : Nat} {g : α → α} :
    ∀ {j : Nat}, j ≠ i → (listModify l i g).get? j = l.get? j := by
  induction l generalizing i with
  | nil => intro j _; rfl
  | cons a rest ih =>
    intro j hj
    cases i with
    | zero =>
      cases j with
      | zero => exact absurd rfl hj
      | succ j => rfl
    | succ i =>
      cases j with
      | zero => rfl
      | succ j =>
        show (listModify rest i g).get? j = rest.get? j
        exact ih (fun h => hj (by rw [h]))

theorem listModify_get_self {l : List α} {i : Nat} {g : α → α} :
    (listModify l i g).get? i = (l.get? i).map g := by
  induction l generalizing i with
  | nil => cases i <;> rfl
  | cons a rest ih =>
    cases i with
    | zero => rfl
    | succ i => exact ih

theorem mem_listModify {l : List α} {i : Nat} {g : α → α} {b : α}
    (hb : b ∈ listModify l i g) :
    b ∈ l ∨ ∃ a ∈ l, b = g a := by
  induction l generalizing i with
  | nil => cases hb
  | cons a rest ih =>
    cases i with
    | zero =>
      rcases List.mem_cons.mp hb with rfl | hb
      · exact Or.inr ⟨a, List.mem_cons_self _ _, rfl⟩
      · exact Or.inl (List.mem_cons_of_mem _ hb)
    | succ i =>
      rcases List.mem_cons.mp hb with rfl | hb
      · exact Or.inl (List.mem_cons_self _ _)
      · rcases ih hb with h | ⟨x, hx, rfl⟩
        · exact Or.inl (List.mem_cons_of_mem _ h)
        · exact Or.inr ⟨x, List.mem_cons_of_mem _ hx, rfl⟩

/-! ### Claim C3: the global-tag-set superset invariant -/

/-- Python-set well-formedness of the model: record tag lists carry no
duplicates (true of every state reachable through the API). -/
def SetNodupInv (tfs : TagsForFiles) : Prop :=
  ∀ f ∈ tfs.file_records, f.tags.Nodup

instance : DecidablePred SetNodupInv := fun tfs =>
  inferInstanceAs (Decidable (∀ f ∈ tfs.file_records, f.tags.Nodup))

theorem add_path_inv {probe : Str → Bool} {tfs : TagsForFiles} {p : Str}
    (h1 : TagsSuperset tfs) (h2 : SetNodupInv tfs) :
    TagsSuperset (add_path probe tfs p).1 ∧ SetNodupInv (add_path probe tfs p).1 := by
  unfold add_path
  cases hf : tfs.file_records.findIdx? (fun f => f.path == p) with
  | some i => exact ⟨h1, h2⟩
  | none =>
    constructor
    · intro f hf' t ht
      rcases List.mem_append.mp hf' with hf' | hf'
      · exact h1 f hf' t ht
      · rcases List.mem_singleton.mp hf' with rfl
        cases ht
    · intro f hf'
      rcases List.mem_append.mp hf' with hf' | hf'
      · exact h2 f hf'
      · rcases List.mem_singleton.mp hf' with rfl
        exact List.nodup_nil

theorem import_step_inv {probe : Str → Bool} {st st' : ParseState} {line : Str}
    (h1 : TagsSuperset st.tfs) (h2 : SetNodupInv st.tfs)
    (h : import_step probe st line = .ok st') :
    TagsSuperset st'.tfs ∧ SetNodupInv st'.tfs := by
  unfold import_step at h
  by_cases h0 : (pyStrip line).length = 0
  · rw [if_pos h0] at h
    cases h
    exact ⟨h1, h2⟩
  · rw [if_neg h0] at h
    by_cases hc : (pyStrip line).head? = some '#'
    · rw [if_pos hc] at h
      by_cases hw : st.want_tags
      · rw [if_pos hw] at h
        cases hrec : st.record with
        | none => rw [hrec] at h; cases h
        | some i =>
          rw [hrec] at h
          cases h
          constructor
          · intro f hf t ht
            rcases mem_listModify hf with hf' | ⟨a, ha, rfl⟩
            · exact h1 f hf' t ht
            · exact h1 a ha t ht
          · intro f hf
            rcases mem_listModify hf with hf' | ⟨a, ha, rfl⟩
            · exact h2 f hf'
            · exact h2 a ha
      · rw [if_neg hw] at h
        cases h
        exact ⟨h1, h2⟩
    · rw [if_neg hc] at h
      by_cases hp : st.want_path_name
      · rw [if_pos hp] at h
        simp only [] at h
        cases h
        exact add_path_inv h1 h2
      · rw [if_neg hp] at h
        by_cases hw : st.want_tags
        · rw [if_pos hw] at h
          cases hrec : st.record with
          | none => rw [hrec] at h; cases h
          | some i =>
            rw [hrec] at h
            cases h
            constructor
            · intro f hf t ht
              rcases mem_listModify hf with hf' | ⟨a, ha, rfl⟩
              · exact mem_pySetUnion.mpr (Or.inl (h1 f hf' t ht))
              · rcases mem_pySetUnion.mp ht with ht' | ht'
                · exact mem_pySetUnion.mpr (Or.inl (h1 a ha t ht'))
                · exact mem_pySetUnion.mpr (Or.inr ht')
            · intro f hf
              rcases mem_listModify hf with hf' | ⟨a, ha, rfl⟩
              · exact h2 f hf'
              · exact nodup_pySetUnion (h2 a ha)
        · rw [if_neg hw] at h
          cases h
          exact ⟨h1, h2⟩

theorem import_lines_inv {probe : Str → Bool} :
    ∀ {lines : List Str} {st st' : ParseState},
      TagsSuperset st.tfs → SetNodupInv st.tfs → import_lines
      probe st lines = .ok st' →
      TagsSuperset st'.tfs ∧ SetNodupInv st'.tfs := by
  intro lines
  induction lines with
  | nil =>
    intro st st' h1 h2 h
    cases h
    exact ⟨h1, h2⟩
  | cons l ls ih =>
    intro st st' h1 h2 h
    rw [import_lines] at h
    cases hstep : import_step probe st l with
    | error e => rw [hstep] at h; cases h
    | ok stm =>
      rw [hstep] at h
      have := import_step_inv h1 h2 hstep
      exact ih this.1 this.2 h

theorem replace_tag_tags (tfs : TagsForFiles) (target repl : Str) :
    (replace_tag tfs target repl).tags =
      if target ∈ tfs.tags then pySetAdd (tfs.tags.erase target) repl
      else tfs.tags := rfl

theorem replace_tag_records (tfs : TagsForFiles) (target repl : Str) :
    (replace_tag tfs target repl).file_records =
      tfs.file_records.map (fun f =>
        if target ∈ f.tags then {f with tags := pySetAdd (f.tags.erase target) repl}
        else f) := rfl

theorem replace_tag_inv {tfs : TagsForFiles} {target repl : Str}
    (h1 : TagsSuperset tfs) (h2 : SetNodupInv tfs) :
    TagsSuperset (replace_tag tfs target repl) ∧
      SetNodupInv (replace_tag tfs target repl) := by
  constructor
  · intro f hf t ht
    rw [replace_tag_records] at hf
    rw [replace_tag_tags]
    simp only [List.mem_map] at hf
    rcases hf with ⟨a, ha, rfl⟩
    by_cases hin : target ∈ a.tags
    · rw [if_pos hin] at ht
      have hglob : target ∈ tfs.tags := h1 a ha target hin
      rw [if_pos hglob]
      rcases mem_pySetAdd.mp ht with ht' | rfl
      · rcases ((h2 a ha).mem_erase_iff).mp ht' with ⟨hne, hmem⟩
        exact mem_pySetAdd.mpr (Or.inl (((List.mem_erase_of_ne hne)).mpr (h1 a ha t hmem)))
      · exact mem_pySetAdd.mpr (Or.inr rfl)
    · rw [if_neg hin] at ht
      by_cases hglob : target ∈ tfs.tags
      · rw [if_pos hglob]
        have hmem := h1 a ha t ht
        by_cases hne : t = target
        · exact absurd (hne ▸ ht) hin
        · exact mem_pySetAdd.mpr (Or.inl ((List.mem_erase_of_ne hne).mpr hmem))
      · rw [if_neg hglob]
        exact h1 a ha t ht
  · intro f hf
    rw [replace_tag_records] at hf
    simp only [List.mem_map] at hf
    rcases hf with ⟨a, ha, rfl⟩
    by_cases hin : target ∈ a.tags
    · rw [if_pos hin]
      exact nodup_pySetAdd ((h2 a ha).erase target)
    · rw [if_neg hin]
      exact h2 a ha

theorem prune_inv {tfs : TagsForFiles}
    (h1 : TagsSuperset tfs) (h2 : SetNodupInv tfs) :
    TagsSuperset (prune tfs) ∧ SetNodupInv (prune tfs) := by
  unfold prune
  exact ⟨fun f hf t ht => h1 f (List.mem_of_mem_filter hf) t ht,
         fun f hf => h2 f (List.mem_of_mem_filter hf)⟩

theorem mem_patchMoved {sel : FileRecord → Bool} :
    ∀ {l : List FileRecord} {ps : List Str} {f' : FileRecord},
      f' ∈ patchMoved sel l ps → ∃ f ∈ l, f'.tags = f.tags := by
  intro l
  induction l with
  | nil => intro ps f' h; cases h
  | cons a rest ih =>
    intro ps f' h
    cases ps with
    | nil =>
      rw [patchMoved] at h
      rcases List.mem_cons.mp h with rfl | h
      · exact ⟨f', List.mem_cons_self _ _, rfl⟩
      · rcases ih h with ⟨f, hf, he⟩
        exact ⟨f, List.mem_cons_of_mem _ hf, he⟩
    | cons p ps' =>
      rw [patchMoved] at h
      by_cases hs : sel a
      · rw [if_pos hs] at h
        rcases List.mem_cons.mp h with rfl | h
        · exact ⟨a, List.mem_cons_self _ _, rfl⟩
        · rcases ih h with ⟨f, hf, he⟩
          exact ⟨f, List.mem_cons_of_mem _ hf, he⟩
      · rw [if_neg hs] at h
        rcases List.mem_cons.mp h with rfl | h
        · exact ⟨f', List.mem_cons_self _ _, rfl⟩
        · rcases ih h with ⟨f, hf, he⟩
          exact ⟨f, List.mem_cons_of_mem _ hf, he⟩

theorem move_if_tagged_inv {fs : List Str} {md : Str} {tfs : TagsForFiles}
    {ttag ddir : Str} (h1 : TagsSuperset tfs) (h2 : SetNodupInv tfs) :
    TagsSuperset (move_if_tagged fs md tfs ttag ddir).tfs ∧
      SetNodupInv (move_if_tagged fs md tfs ttag ddir).tfs := by
  unfold move_if_tagged
  constructor
  · intro f hf t ht
    rcases mem_patchMoved hf with ⟨a, ha, he⟩
    exact h1 a ha t (he ▸ ht)
  · intro f hf
    rcases mem_patchMoved hf with ⟨a, ha, he⟩
    exact he ▸ h2 a ha

theorem applyOp_inv {tfs : TagsForFiles} {op : IndexOp}
    (h1 : TagsSuperset tfs) (h2 : SetNodupInv tfs) :
    TagsSuperset (applyOp tfs op) ∧ SetNodupInv (applyOp tfs op) := by
  cases op with
  | importData probe lines =>
    show TagsSuperset (match import_text_data probe tfs lines with
        | .ok t => t | .error _ => tfs) ∧
      SetNodupInv (match import_text_data probe tfs lines with
        | .ok t => t | .error _ => tfs)
    cases h : import_text_data probe tfs lines with
    | error e => exact ⟨h1, h2⟩
    | ok t =>
      unfold import_text_data at h
      cases h2' : import_lines probe ⟨tfs, true, false, none⟩ lines with
      | error e => rw [h2'] at h; cases h
      | ok st' =>
        rw [h2'] at h
        simp only [Except.map] at h
        cases h
        exact import_lines_inv h1 h2 h2'
  | addPath probe p => exact add_path_inv h1 h2
  | replaceTag target repl => exact replace_tag_inv h1 h2
  | pruneOp => exact prune_inv h1 h2
  | moveIfTagged fs md t d => exact move_if_tagged_inv h1 h2

/-- C3, corrected: for every starting index whose tag sets are genuine
sets and satisfy the superset invariant, every sequence of operations
drawn from `import_text_data` / `add_path`, `replace_tag`, `prune` and
`move_if_tagged` preserves `Index.tags ⊇` every record's tags.
`clean_all_tags` and `extract_all_tags` are excluded: they rewrite the
records' tag sets without updating the index-level set
(see `C3_counterexample`). -/
theorem C3_theorem (tfs : TagsForFiles) (h1 : TagsSuperset tfs)
    (h2 : SetNodupInv tfs) (ops : List IndexOp) :
    TagsSuperset (ops.foldl applyOp tfs) := by
  induction ops generalizing tfs with
  | nil => exact h1
  | cons op rest ih =>
    rcases @applyOp_inv tfs op h1 h2 with ⟨h1', h2'⟩
    exact ih _ h1' h2'

/-- C3 witness: the preserved invariant after a concrete operation
sequence (an import followed by a `replace_tag` and a `prune`). -/
theorem C3_witness :
    TagsSuperset ([IndexOp.importData (fun _ => false) ["p".data, "a b".data],
        IndexOp.replaceTag "a".data "c".data,
        IndexOp.pruneOp].foldl applyOp TagsForFiles.empty) :=
  C3_theorem TagsForFiles.empty (by decide) (by decide) _

/-- C3 counterexample: import a record tagged `"A"`, then run
`clean_all_tags`.  The record's tag set becomes `{"a"}` while the
index-level tag set stays `{"A"}`: the superset invariant is broken. -/
theorem C3_counterexample :
    ¬ TagsSuperset (clean_all_tags
      (match import_text_data (fun _ => false) TagsForFiles.empty
          ["p".data, "A".data] with
        | .ok t => t
        | .error _ => TagsForFiles.empty)) := by
  decide

/-! ### Claim C9: parser totality and tolerance -/

/-- Tokens produced by Python `split()` are non-empty and contain no
whitespace. -/
theorem mem_splitWsAux {t : Str} :
    ∀ {s acc : Str}, (∀ c ∈ acc, isPySpace c = false) →
      t ∈ splitWsAux s acc → t ≠ [] ∧ wsFree t := by
  intro s
  induction s with
  | nil =>
    intro acc hacc ht
    rw [splitWsAux] at ht
    by_cases h : acc = []
    · rw [if_pos h] at ht
      cases ht
    · rw [if_neg h] at ht
      rcases List.mem_singleton.mp ht with rfl
      refine ⟨by simpa using h, ?_⟩
      intro c hc
      exact hacc c (List.mem_reverse.mp hc)
  | cons c rest ih =>
    intro acc hacc ht
    rw [splitWsAux] at ht
    by_cases hws : isPySpace c
    · rw [if_pos hws] at ht
      by_cases h : acc = []
      · rw [if_pos h] at ht
        exact ih (by intro x hx; cases hx) ht
      · rw [if_neg h] at ht
        rcases List.mem_cons.mp ht with rfl | ht
        · refine ⟨by simpa using h, ?_⟩
          intro x hx
          exact hacc x (List.mem_reverse.mp hx)
        · exact ih (by intro x hx; cases hx) ht
    · rw [if_neg hws] at ht
      refine ih ?_ ht
      intro x hx
      rcases List.mem_cons.mp hx with rfl | hx
      · exact Bool.eq_false_iff.mpr hws
      · exact hacc x hx

theorem mem_pySplitWs {t s : Str} (ht : t ∈ pySplitWs s) : t ≠ [] ∧ wsFree t :=
  mem_splitWsAux (by intro c hc; cases hc) ht

/-- Stripping the already-whitespace-free `split()` tokens is a no-op
(the `t.strip()` in the parser's comprehension). -/
theorem map_pyStrip_splitWs (s : Str) :
    (pySplitWs s).map pyStrip = pySplitWs s := by
  have hmc : ∀ t ∈ pySplitWs s, pyStrip t = id t :=
    fun t ht => pyStrip_wsFree (mem_pySplitWs ht).2
  rw [List.map_congr_left hmc, List.map_id]

/-- The record-pointer invariant of the parser: whenever the tag flag is
set, the current record exists. -/
def PRecOk (st : ParseState) : Prop := st.want_tags = true → st.record.isSome

theorem import_step_total {probe : Str → Bool} {st : ParseState} {line : Str}
    (h : PRecOk st) :
    ∃ st', import_step probe st line = .ok st' ∧ PRecOk st' := by
  unfold import_step
  by_cases h0 : (pyStrip line).length = 0
  · rw [if_pos h0]
    exact ⟨_, rfl, by intro hw; cases hw⟩
  · rw [if_neg h0]
    by_cases hc : (pyStrip line).head? = some '#'
    · rw [if_pos hc]
      by_cases hw : st.want_tags
      · rw [if_pos hw]
        cases hrec : st.record with
        | none => exact absurd (hrec ▸ h hw) (by simp)
        | some i =>
          refine ⟨_, rfl, ?_⟩
          intro _
          simp
      · rw [if_neg hw]
        exact ⟨st, rfl, h⟩
    · rw [if_neg hc]
      by_cases hp : st.want_path_name
      · rw [if_pos hp]
        refine ⟨_, rfl, ?_⟩
        intro _
        simp
      · rw [if_neg hp]
        by_cases hw : st.want_tags
        · rw [if_pos hw]
          cases hrec : st.record with
          | none => exact absurd (hrec ▸ h hw) (by simp)
          | some i =>
            refine ⟨_, rfl, ?_⟩
            intro _
            simp
        · rw [if_neg hw]
          exact ⟨st, rfl, h⟩

theorem import_lines_total {probe : Str → Bool} :
    ∀ {lines : List Str} {st : ParseState}, PRecOk st →
      ∃ st', import_lines probe st lines = .ok st' := by
  intro lines
  induction lines with
  | nil => intro st _; exact ⟨st, rfl⟩
  | cons l ls ih =>
    intro st h
    rcases @import_step_total probe st l h with ⟨stm, hstep, hm⟩
    rcases ih hm with ⟨st', hrest⟩
    refine ⟨st', ?_⟩
    rw [import_lines, hstep]
    exact hrest

/-- C9, confirmed.  (1) `import_text_data` never raises: every list of
input lines yields `.ok`.  (2) A `#` line seen while no record is open
(`want_tags = false`, e.g. before any path line) is silently dropped: the
state is returned unchanged.  (3) On a tag line, every
whitespace-separated token — malformed `key=value` forms included — is
added to the current record's tag set and to the index's tag set. -/
theorem C9_theorem :
    (∀ (probe : Str → Bool) (tfs : TagsForFiles) (lines : List Str),
      ∃ tfs', import_text_data probe tfs lines = .ok tfs') ∧
    (∀ (probe : Str → Bool) (st : ParseState) (line : Str),
      (pyStrip line).length ≠ 0 → (pyStrip line).head? = some '#' →
      st.want_tags = false → import_step probe st line = .ok st) ∧
    (∀ (probe : Str → Bool) (st : ParseState) (line : Str) (i : Nat),
      st.want_path_name = false → st.want_tags = true → st.record = some i →
      i < st.tfs.file_records.length →
      (pyStrip line).length ≠ 0 → (pyStrip line).head? ≠ some '#' →
      ∃ st', import_step probe st line = .ok st' ∧
        ∀ tok ∈ pySplitWs (pyStrip line),
          tok ∈ st'.tfs.tags ∧
          ∃ f, st'.tfs.file_records.get? i = some f ∧ tok ∈ f.tags) := by
  refine ⟨?_, ?_, ?_⟩
  · intro probe tfs lines
    rcases @import_lines_total probe lines ⟨tfs, true, false, none⟩
        (by intro h; cases h) with ⟨st', h⟩
    exact ⟨st'.tfs, by unfold import_text_data; rw [h]; rfl⟩
  · intro probe st line h0 hc hw
    unfold import_step
    rw [if_neg h0, if_pos hc, if_neg (by rw [hw]; exact Bool.false_ne_true)]
  · intro probe st line i hp hw hrec hlen h0 hc
    unfold import_step
    rw [if_neg h0, if_neg hc, if_neg (by rw [hp]; exact Bool.false_ne_true),
        if_pos hw, hrec]
    refine ⟨_, rfl, ?_⟩
    intro tok htok
    rw [map_pyStrip_splitWs]
    constructor
    · exact mem_pySetUnion.mpr (Or.inr htok)
    · set g := fun f : FileRecord =>
        {f with tags := pySetUnion f.tags (pySplitWs (pyStrip line))} with hg
      have hmod : (listModify st.tfs.file_records i g).get? i
          = some (g (st.tfs.file_records.get ⟨i, hlen⟩)) := by
        rw [listModify_get_self, List.get?_eq_get hlen]
        rfl
      exact ⟨_, hmod, mem_pySetUnion.mpr (Or.inr htok)⟩

/-- C9 witness: the three tolerance properties at concrete inputs — an import
with a leading comment and a malformed `key=value` tag line; a
dropped pre-path `#` line; and a tag line whose tokens `k=`, `=v` are all
accepted. -/
theorem C9_witness :
    (∃ tfs', import_text_data (fun _ => false) TagsForFiles.empty
        ["# lead".data, "p".data, "k= =v".data] = .ok tfs') ∧ import_step
    (fun _ => false) ⟨TagsForFiles.empty, true, false, none⟩
        "# dropped".data = .ok ⟨TagsForFiles.empty, true, false, none⟩ ∧
    (∃ st', import_step (fun _ => false)
        ⟨⟨[], [⟨0, "p".data, false, [], []⟩]⟩, false, true, some 0⟩
        "k= =v x".data = .ok st' ∧
      ∀ tok ∈ pySplitWs (pyStrip "k= =v x".data),
        tok ∈ st'.tfs.tags ∧
        ∃ f, st'.tfs.file_records.get? 0 = some f ∧ tok ∈ f.tags) := by
  refine ⟨C9_theorem.1 _ _ _, C9_theorem.2.1 _ _ _ (by decide) (by decide) rfl, ?_⟩
  exact C9_theorem.2.2 _ _ _ 0 rfl rfl rfl (by decide) (by decide) (by decide)

/-! ### Claim C10: serialisation sorts the record list in place -/

/-- C10, confirmed: `write_file_records_to_file` replaces the index's
`file_records` with the same records re-ordered (a permutation) sorted by
path — serialisation is not read-only.  Concretely, with records
inserted as `[b\x.mp3, a\x.mp3]`, `find_duplicated_filenames` reports
`a\x.mp3` before the call and `b\x.mp3` after it: order-dependent
operations observe the path-sorted order afterwards. -/
theorem C10_theorem :
    (∀ tfs : TagsForFiles,
      (write_file_records tfs).1.file_records.Perm tfs.file_records ∧
      List.Sorted pathLe (write_file_records tfs).1.file_records ∧
      (write_file_records tfs).1.file_records =
        tfs.file_records.insertionSort pathLe) ∧
    (find_duplicated_filenames
        ⟨[], [⟨0, "b\\x.mp3".data, true, [], []⟩,
              ⟨1, "a\\x.mp3".data, true, [], []⟩]⟩ = ["a\\x.mp3".data] ∧
     find_duplicated_filenames
        (write_file_records
          ⟨[], [⟨0, "b\\x.mp3".data, true, [], []⟩,
                ⟨1, "a\\x.mp3".data, true, [], []⟩]⟩).1 = ["b\\x.mp3".data]) := by
  constructor
  · intro tfs
    refine ⟨List.perm_insertionSort pathLe _, List.sorted_insertionSort pathLe _, rfl⟩
  · exact ⟨by decide, by decide⟩

/-! ### Claim C6: collision handling in `move_if_tagged` -/

theorem movePhase2_all_collide {d : Str} :
    ∀ {l : List FileRecord} {fs : List Str} {n : Nat},
      (∀ f ∈ l, pyJoinPath d (pyBasename f.path) ∈ fs) →
      movePhase2 d fs n l = (fs, n, l.map (·.path)) := by
  intro l
  induction l with
  | nil => intro fs n _; rfl
  | cons f rest ih =>
    intro fs n h
    rw [movePhase2, if_pos (h f (List.mem_cons_self _ _))]
    rw [ih (fun g hg => h g (List.mem_cons_of_mem _ hg))]
    rfl

theorem patchMoved_self (sel : FileRecord → Bool) :
    ∀ l : List FileRecord,
      patchMoved sel l ((l.filter sel).map (·.path)) = l := by
  intro l
  induction l with
  | nil => rfl
  | cons a rest ih =>
    by_cases hs : sel a
    · rw [List.filter_cons_of_pos hs, List.map_cons, patchMoved, if_pos hs, ih]
    · rw [List.filter_cons_of_neg hs]
      cases hrest : (rest.filter sel).map (·.path) with
      | nil => rw [patchMoved, ← hrest, ih]
      | cons p ps' => rw [patchMoved, if_neg hs, ← hrest, ih]

/-- C6, confirmed.  (1) When the computed destination of the record at
the head of the `to_move` work list already exists, that record is
skipped: the filesystem, the moved count and the record's path are
untouched and the remaining records are processed exactly as if the
record were absent.  (2) Consequently, when every selected record's
destination already exists, `move_if_tagged` moves nothing: the index is
returned unchanged, zero moves are reported out of the full request
count, and the filesystem gains at most the created destination
folder. -/
theorem C6_theorem :
    (∀ (dest_folder : Str) (fs : List Str) (n : Nat) (f : FileRecord)
        (rest : List FileRecord),
      pyJoinPath dest_folder (pyBasename f.path) ∈ fs →
      movePhase2 dest_folder fs n (f :: rest) =
        ((movePhase2 dest_folder fs n rest).1,
         (movePhase2 dest_folder fs n rest).2.1,
         f.path :: (movePhase2 dest_folder fs n rest).2.2)) ∧
    (∀ (fs : List Str) (md : Str) (tfs : TagsForFiles) (ttag ddir : Str),
      (∀ f ∈ tfs.file_records.filter (moveSelected ttag ddir),
        pyJoinPath (pyJoinPath md ddir) (pyBasename f.path) ∈ fs) →
      move_if_tagged fs md tfs ttag ddir =
        ⟨if pyJoinPath md ddir ∈ fs then fs else pyJoinPath md ddir :: fs,
         tfs, 0,
         (tfs.file_records.filter (moveSelected ttag ddir)).length⟩) := by
  constructor
  · intro dest_folder fs n f rest h
    rw [movePhase2, if_pos h]
  · intro fs md tfs ttag ddir h
    simp only [move_if_tagged]
    have hfs' : ∀ f ∈ tfs.file_records.filter (moveSelected ttag ddir),
        pyJoinPath (pyJoinPath md ddir) (pyBasename f.path) ∈
          (if pyJoinPath md ddir ∈ fs then fs else pyJoinPath md ddir :: fs) := by
      intro f hf
      by_cases hd : pyJoinPath md ddir ∈ fs
      · rw [if_pos hd]; exact h f hf
      · rw [if_neg hd]; exact List.mem_cons_of_mem _ (h f hf)
    rw [movePhase2_all_collide hfs']
    rw [patchMoved_self]

/-- C6 witness: a two-record batch in which the first record's
destination `r\.trash\f.mp3` already exists — `move_if_tagged` skips it
and still moves the second record — plus the all-collide corollary on a
one-record index. -/
theorem C6_witness :
    movePhase2 ("r\\.trash".data) ["r\\.trash\\f.mp3".data] 0
        [⟨0, "r\\a\\f.mp3".data, true, [], ["to-delete".data]⟩,
         ⟨1, "r\\b\\g.mp3".data, true, [], ["to-delete".data]⟩] =
      ((movePhase2 ("r\\.trash".data) ["r\\.trash\\f.mp3".data] 0
          [⟨1, "r\\b\\g.mp3".data, true, [], ["to-delete".data]⟩]).1,
       (movePhase2 ("r\\.trash".data) ["r\\.trash\\f.mp3".data] 0
          [⟨1, "r\\b\\g.mp3".data, true, [], ["to-delete".data]⟩]).2.1,
       "r\\a\\f.mp3".data ::
         (movePhase2 ("r\\.trash".data) ["r\\.trash\\f.mp3".data] 0
            [⟨1, "r\\b\\g.mp3".data, true, [], ["to-delete".data]⟩]).2.2) ∧
    move_if_tagged ["r\\.trash".data, "r\\.trash\\f.mp3".data] "r".data
        ⟨["to-delete".data], [⟨0, "r\\a\\f.mp3".data, true, [], ["to-delete".data]⟩]⟩
        "to-delete".data ".trash".data =
      ⟨["r\\.trash".data, "r\\.trash\\f.mp3".data],
       ⟨["to-delete".data], [⟨0, "r\\a\\f.mp3".data, true, [], ["to-delete".data]⟩]⟩,
       0, 1⟩ := by
  constructor
  · exact C6_theorem.1 "r\\.trash".data ["r\\.trash\\f.mp3".data] 0 _ _ (by decide)
  · exact C6_theorem.2 ["r\\.trash".data, "r\\.trash\\f.mp3".data] "r".data
      ⟨["to-delete".data], [⟨0, "r\\a\\f.mp3".data, true, [], ["to-delete".data]⟩]⟩
      "to-delete".data ".trash".data (by decide)

/-! ### Claim C8: the untracked-file scan -/

theorem untrackedStep_fst (known exts : List Str) (d : Str)
    (st : List Str × List Str) (fn : Str) :
    (untrackedStep known exts d st fn).1 =
      if ends_with fn exts ∧ pyJoinPath d fn ∉ known then
        st.1 ++ [pyJoinPath d fn]
      else st.1 := by
  simp only [untrackedStep]
  by_cases h1 : (pyExtDot fn).length > 0 <;>
    by_cases h2 : (pyExtDot fn).tail ∈ exts <;>
      by_cases h3 : ends_with fn exts <;>
        by_cases h4 : pyJoinPath d fn ∈ known <;>
          simp [h1, h2, h3, h4]

theorem untrackedStep_snd (known exts : List Str) (d : Str)
    (st : List Str × List Str) (fn : Str) :
    (untrackedStep known exts d st fn).2 =
      if (pyExtDot fn).length > 0 ∧ (pyExtDot fn).drop 1 ∉ exts then
        pySetAdd st.2 ((pyExtDot fn).drop 1)
      else st.2 := by
  simp only [untrackedStep]
  by_cases h1 : (pyExtDot fn).length > 0 <;>
    by_cases h2 : (pyExtDot fn).tail ∈ exts <;>
      by_cases h3 : ends_with fn exts <;>
        by_cases h4 : pyJoinPath d fn ∈ known <;>
          simp [h1, h2, h3, h4]

/-- The `(dir_path, filename)` pairs produced by walking the tree, in
visit order. -/
def walkPairs (walk : List (Str × List Str)) : List (Str × Str) :=
  walk.flatMap (fun dw => dw.2.map (fun fn => (dw.1, fn)))

theorem contains_eq_true_iff {l : List Str} {x : Str} :
    l.contains x = true ↔ x ∈ l := List.elem_iff

theorem untracked_foldl_pairs (known exts : List Str)
    (walk : List (Str × List Str)) (st : List Str × List Str) :
    walk.foldl (fun st rec =>
        rec.2.foldl (untrackedStep known exts rec.1) st) st =
      (walkPairs walk).foldl
        (fun st q => untrackedStep known exts q.1 st q.2) st := by
  induction walk generalizing st with
  | nil => rfl
  | cons dw rest ih =>
    rw [List.foldl_cons, ih]
    simp only [walkPairs, List.flatMap_cons, List.foldl_append, List.foldl_map]

theorem untracked_pairs_fst (known exts : List Str) :
    ∀ (ps : List (Str × Str)) (st : List Str × List Str),
      (ps.foldl (fun st q => untrackedStep known exts q.1 st q.2) st).1 =
        st.1 ++ (ps.filter (fun q => ends_with q.2 exts &&
            !(known.contains (pyJoinPath q.1 q.2)))).map
          (fun q => pyJoinPath q.1 q.2) := by
  intro ps
  induction ps with
  | nil => intro st; simp
  | cons q rest ih =>
    intro st
    rw [List.foldl_cons, ih]
    by_cases hq : ends_with q.2 exts ∧ pyJoinPath q.1 q.2 ∉ known
    · have hc : known.contains (pyJoinPath q.1 q.2) = false := by
        rw [Bool.eq_false_iff]
        intro hcon
        exact hq.2 (contains_eq_true_iff.mp hcon)
      rw [List.filter_cons_of_pos (by rw [Bool.and_eq_true, hc]; exact ⟨hq.1, rfl⟩),
        List.map_cons, untrackedStep_fst, if_pos hq]
      simp
    · rw [List.filter_cons_of_neg
        (by rw [Bool.and_eq_true]
            rintro ⟨ha, hb⟩
            rw [Bool.not_eq_true'] at hb
            rw [Bool.eq_false_iff] at hb
            exact hq ⟨ha, fun hm => hb (contains_eq_true_iff.mpr hm)⟩),
        untrackedStep_fst, if_neg hq]

theorem untracked_pairs_snd (known exts : List Str) :
    ∀ (ps : List (Str × Str)) (st : List Str × List Str) (e : Str),
      e ∈ (ps.foldl (fun st q => untrackedStep known exts q.1 st q.2) st).2 ↔
        e ∈ st.2 ∨ ∃ q ∈ ps, (pyExtDot q.2).length > 0 ∧
          (pyExtDot q.2).drop 1 = e ∧ e ∉ exts := by
  intro ps
  induction ps with
  | nil =>
    intro st e
    simp
  | cons q rest ih =>
    intro st e
    rw [List.foldl_cons, ih]
    rw [untrackedStep_snd]
    by_cases hq : (pyExtDot q.2).length > 0 ∧ (pyExtDot q.2).drop 1 ∉ exts
    · rw [if_pos hq, mem_pySetAdd]
      constructor
      · rintro ((h | rfl) | h)
        · exact Or.inl h
        · exact Or.inr ⟨q, List.mem_cons_self _ _, hq.1, rfl, hq.2⟩
        · rcases h with ⟨q', hq', hh⟩
          exact Or.inr ⟨q', List.mem_cons_of_mem _ hq', hh⟩
      · rintro (h | ⟨q', hq', hh⟩)
        · exact Or.inl (Or.inl h)
        · rcases List.mem_cons.mp hq' with rfl | hq'
          · exact Or.inl (Or.inr hh.2.1.symm)
          · exact Or.inr ⟨q', hq', hh⟩
    · rw [if_neg hq]
      constructor
      · rintro (h | ⟨q', hq', hh⟩)
        · exact Or.inl h
        · exact Or.inr ⟨q', List.mem_cons_of_mem _ hq', hh⟩
      · rintro (h | ⟨q', hq', hh⟩)
        · exact Or.inl h
        · rcases List.mem_cons.mp hq' with rfl | hq'
          · exact absurd ⟨hh.1, hh.2.1 ▸ hh.2.2⟩ hq
          · exact Or.inr ⟨q', hq', hh⟩

theorem mem_known_foldl {x : Str} :
    ∀ (l : List FileRecord) (s0 : List Str),
      x ∈ l.foldl (fun s f => pySetAdd s f.path) s0 ↔
        x ∈ s0 ∨ x ∈ l.map (·.path) := by
  intro l
  induction l with
  | nil => intro s0; simp
  | cons f rest ih =>
    intro s0
    rw [List.foldl_cons, ih, mem_pySetAdd, List.map_cons, List.mem_cons]
    tauto

/-- C8, confirmed.  The untracked list is exactly the walked
`(dir, filename)` pairs whose filename ends with one of the literal
extension strings and whose joined path is not a record path, in walk
order; the reported extension set contains exactly the encountered
dotted extensions that are not in the filter.  In particular, with known
file `r\a.mp3`, a tree holding `a.mp3, b.mp3, c.txt` and filter `{mp3}`,
the scan returns `[r\b.mp3]` and reports `txt`. -/
theorem C8_theorem :
    (∀ (tfs : TagsForFiles) (walk : List (Str × List Str)) (exts : List Str),
      (find_untracked tfs walk exts).1 =
        ((walkPairs walk).filter (fun q => ends_with q.2 exts &&
            !((tfs.file_records.map (·.path)).contains (pyJoinPath q.1 q.2)))).map
          (fun q => pyJoinPath q.1 q.2) ∧
      ∀ e : Str, e ∈ (find_untracked tfs walk exts).2 ↔
        ∃ q ∈ walkPairs walk, (pyExtDot q.2).length > 0 ∧
          (pyExtDot q.2).drop 1 = e ∧ e ∉ exts) ∧
    find_untracked ⟨[], [⟨0, pyJoinPath "r".data "a.mp3".data, true, [], []⟩]⟩
        [("r".data, ["a.mp3".data, "b.mp3".data, "c.txt".data])] ["mp3".data] =
      ([pyJoinPath "r".data "b.mp3".data], ["txt".data]) := by
  constructor
  · intro tfs walk exts
    constructor
    · show (walk.foldl (fun st rec =>
          rec.2.foldl (untrackedStep
            (tfs.file_records.foldl (fun s f => pySetAdd s f.path) [])
            exts rec.1) st) ([], [])).1 = _
      rw [untracked_foldl_pairs, untracked_pairs_fst, List.nil_append]
      congr 1
      apply List.filter_congr
      intro q _
      congr 1
      congr 1
      rw [Bool.eq_iff_iff, contains_eq_true_iff, contains_eq_true_iff,
          mem_known_foldl]
      simp
    · intro e
      show e ∈ (walk.foldl (fun st rec =>
          rec.2.foldl (untrackedStep
            (tfs.file_records.foldl (fun s f => pySetAdd s f.path) [])
            exts rec.1) st) ([], [])).2 ↔ _
      rw [untracked_foldl_pairs, untracked_pairs_snd]
      simp
  · decide

/-! ### Claim C2: tag-intersection lookup -/

theorem lookupTag_nil {u : Str} : lookupTag [] u = none := rfl

theorem lookupTag_cons {k : Str} {vs : List Str} {rest : List (Str × List Str)}
    {u : Str} :
    lookupTag ((k, vs) :: rest) u = if k = u then some vs else lookupTag rest u := by
  unfold lookupTag
  by_cases h : k = u
  · rw [List.find?_cons_of_pos _ (by simp [h]), if_pos h]
    rfl
  · rw [List.find?_cons_of_neg _ (by simp [h]), if_neg h]

theorem pySetAdd_self_mem {v : List Str} {p : Str} : p ∈ pySetAdd v p :=
  mem_pySetAdd.mpr (Or.inr rfl)

theorem pySetAdd_idem {v : List Str} {p : Str} :
    pySetAdd (pySetAdd v p) p = pySetAdd v p := by
  unfold pySetAdd
  by_cases h : p ∈ v
  · rw [if_pos h, if_pos h]
  · rw [if_neg h]
    rw [if_pos (by simp)]

theorem mapAddPath_some_of_key {t p : Str} :
    ∀ {m : List (Str × List Str)}, (∃ kv ∈ m, kv.1 = t) →
      ∃ m', mapAddPath m t p = some m' ∧
        (∀ u, lookupTag m' u =
          if u = t then (lookupTag m u).map (fun v => pySetAdd v p)
          else lookupTag m u) := by
  intro m
  induction m with
  | nil => rintro ⟨kv, hkv, _⟩; cases hkv
  | cons kv rest ih =>
    intro hkey
    rcases kv with ⟨k, v⟩
    by_cases hk : k = t
    · refine ⟨(k, pySetAdd v p) :: rest, ?_, ?_⟩
      · rw [mapAddPath, if_pos hk]
      · intro u
        rw [lookupTag_cons, lookupTag_cons]
        by_cases hu : k = u
        · subst hu
          simp [hk]
        · by_cases hut : u = t
          · exact absurd (hk.trans hut.symm) hu
          · rw [if_neg hu, if_neg hut, if_neg hu]
    · have hkey' : ∃ kv ∈ rest, kv.1 = t := by
        rcases hkey with ⟨kv', hkv', he⟩
        rcases List.mem_cons.mp hkv' with rfl | hm
        · exact absurd he hk
        · exact ⟨kv', hm, he⟩
      rcases ih hkey' with ⟨m', hm', hspec⟩
      refine ⟨(k, v) :: m', ?_, ?_⟩
      · rw [mapAddPath, if_neg hk, hm']
        rfl
      · intro u
        rw [lookupTag_cons, lookupTag_cons]
        by_cases hu : k = u
        · subst hu
          rw [if_pos rfl, if_neg (fun he : k = t => hk he), if_pos rfl]
        · rw [if_neg hu, hspec]
          by_cases hut : u = t
          · rw [if_pos hut, if_pos hut, if_neg hu]
          · rw [if_neg hut, if_neg hut, if_neg hu]

theorem lookupTag_some_of_key {mm : List (Str × List Str)} {u : Str}
    (h : ∃ kv ∈ mm, kv.1 = u) : ∃ v, lookupTag mm u = some v := by
  rcases h with ⟨kv, hkv, he⟩
  have hfind : (mm.find? (fun x => x.1 == u)).isSome :=
    List.find?_isSome.mpr ⟨kv, hkv, by simp [he]⟩
  rcases Option.isSome_iff_exists.mp hfind with ⟨kv', hkv'⟩
  exact ⟨kv'.2, by unfold lookupTag; rw [hkv']; rfl⟩

theorem key_of_lookupTag_some {mm : List (Str × List Str)} {u : Str}
    {v : List Str} (hv : lookupTag mm u = some v) : ∃ kv ∈ mm, kv.1 = u := by
  unfold lookupTag at hv
  rcases Option.map_eq_some'.mp hv with ⟨kv', hkv', _⟩
  refine ⟨kv', List.mem_of_find?_eq_some hkv', ?_⟩
  have := List.find?_some hkv'
  simpa using this

theorem addRecordTags_spec {p : Str} :
    ∀ (ts : List Str) (m : List (Str × List Str)),
      (∀ t ∈ ts, ∃ kv ∈ m, kv.1 = t) →
      (∀ u v, lookupTag m u = some v → p ∈ v → pySetAdd v p = v) →
      ∃ m', addRecordTags p m ts = some m' ∧
        (∀ u, lookupTag m' u =
          if u ∈ ts then (lookupTag m u).map (fun v => pySetAdd v p)
          else lookupTag m u) := by
  intro ts
  induction ts with
  | nil =>
    intro m _ _
    refine ⟨m, rfl, ?_⟩
    intro u
    rw [if_neg (by simp)]
  | cons t ts' ih =>
    intro m hkeys hstable
    rcases @mapAddPath_some_of_key t p m (hkeys t (List.mem_cons_self _ _)) with
      ⟨m1, hm1, hspec1⟩
    have hkeys' : ∀ u ∈ ts', ∃ kv ∈ m1, kv.1 = u := by
      intro u hu
      rcases lookupTag_some_of_key (hkeys u (List.mem_cons_of_mem _ hu)) with ⟨v, hv⟩
      have hsome : ∃ v', lookupTag m1 u = some v' := by
        rw [hspec1]
        by_cases h : u = t
        · rw [if_pos h, hv]
          exact ⟨_, rfl⟩
        · rw [if_neg h, hv]
          exact ⟨_, rfl⟩
      rcases hsome with ⟨v', hv'⟩
      exact key_of_lookupTag_some hv'
    have hstable1 : ∀ u v, lookupTag m1 u = some v → p ∈ v → pySetAdd v p = v := by
      intro u v hv hp
      rw [hspec1] at hv
      by_cases h : u = t
      · rw [if_pos h] at hv
        rcases Option.map_eq_some'.mp hv with ⟨v0, hv0, rfl⟩
        exact pySetAdd_idem
      · rw [if_neg h] at hv
        exact hstable u v hv hp
    rcases ih m1 hkeys' hstable1 with ⟨m', hm', hspec'⟩
    refine ⟨m', ?_, ?_⟩
    · rw [addRecordTags, hm1]
      exact hm'
    · intro u
      rw [hspec', hspec1]
      by_cases hu : u ∈ t :: ts'
      · rw [if_pos hu]
        rcases List.mem_cons.mp hu with rfl | hu'
        · by_cases hu2 : u ∈ ts'
          · rw [if_pos hu2, if_pos rfl]
            cases hv : lookupTag m u with
            | none => rfl
            | some v =>
              simp only [Option.map_some']
              rw [pySetAdd_idem]
          · rw [if_neg hu2, if_pos rfl]
        · by_cases hu2 : u = t
          · subst hu2
            rw [if_pos hu', if_pos rfl]
            cases hv : lookupTag m u with
            | none => rfl
            | some v =>
              simp only [Option.map_some']
              rw [pySetAdd_idem]
          · rw [if_pos hu', if_neg hu2]
      · have hu1 : u ∉ ts' := fun h => hu (List.mem_cons_of_mem _ h)
        have hu2 : u ≠ t := fun h => hu (h ▸ List.mem_cons_self _ _)
        rw [if_neg hu1, if_neg hu2, if_neg hu]

theorem pySetAdd_stable {v : List Str} {p : Str} (hp : p ∈ v) :
    pySetAdd v p = v := by
  unfold pySetAdd
  rw [if_pos hp]

theorem btfm_spec :
    ∀ (records : List FileRecord) (m : List (Str × List Str)),
      (∀ f ∈ records, ∀ t ∈ f.tags, ∃ kv ∈ m, kv.1 = t) →
      ∃ m', btfmRecords false m records = .ok m' ∧
        (∀ u, (∃ kv ∈ m', kv.1 = u) ↔ (∃ kv ∈ m, kv.1 = u)) ∧
        (∀ u v', lookupTag m' u = some v' →
          ∃ v, lookupTag m u = some v ∧
            ∀ x, x ∈ v' ↔ x ∈ v ∨ ∃ f ∈ records, f.path = x ∧ u ∈ f.tags) := by
  intro records
  induction records with
  | nil =>
    intro m _
    refine ⟨m, rfl, fun u => Iff.rfl, ?_⟩
    intro u v' hv'
    refine ⟨v', hv', ?_⟩
    intro x
    simp
  | cons f rest ih =>
    intro m hkeys
    rcases @addRecordTags_spec f.path f.tags m
        (hkeys f (List.mem_cons_self _ _))
        (fun _ v _ hp => pySetAdd_stable hp) with ⟨m1, hm1, hspec1⟩
    have hkeys1 : ∀ u, (∃ kv ∈ m1, kv.1 = u) ↔ (∃ kv ∈ m, kv.1 = u) := by
      intro u
      constructor
      · intro h
        rcases lookupTag_some_of_key h with ⟨v, hv⟩
        rw [hspec1] at hv
        by_cases hu : u ∈ f.tags
        · rw [if_pos hu] at hv
          rcases Option.map_eq_some'.mp hv with ⟨v0, hv0, _⟩
          exact key_of_lookupTag_some hv0
        · rw [if_neg hu] at hv
          exact key_of_lookupTag_some hv
      · intro h
        rcases lookupTag_some_of_key h with ⟨v, hv⟩
        have : ∃ v', lookupTag m1 u = some v' := by
          rw [hspec1]
          by_cases hu : u ∈ f.tags
          · rw [if_pos hu, hv]
            exact ⟨_, rfl⟩
          · rw [if_neg hu, hv]
            exact ⟨_, rfl⟩
        rcases this with ⟨v', hv'⟩
        exact key_of_lookupTag_some hv'
    rcases ih m1 (by
      intro g hg t ht
      exact (hkeys1 t).mpr (hkeys g (List.mem_cons_of_mem _ hg) t ht)) with
      ⟨m', hm', hkeys', hspec'⟩
    refine ⟨m', ?_, ?_, ?_⟩
    · rw [btfmRecords]
      simp only [Bool.false_and, Bool.false_eq_true, if_false]
      rw [hm1]
      exact hm'
    · intro u
      exact (hkeys' u).trans (hkeys1 u)
    · intro u v' hv'
      rcases hspec' u v' hv' with ⟨v1, hv1, hiff1⟩
      rw [hspec1] at hv1
      by_cases hu : u ∈ f.tags
      · rw [if_pos hu] at hv1
        rcases Option.map_eq_some'.mp hv1 with ⟨v, hv, rfl⟩
        refine ⟨v, hv, ?_⟩
        intro x
        rw [hiff1 x, mem_pySetAdd]
        constructor
        · rintro ((h | rfl) | ⟨g, hg, hgp, hgu⟩)
          · exact Or.inl h
          · exact Or.inr ⟨f, List.mem_cons_self _ _, rfl, hu⟩
          · exact Or.inr ⟨g, List.mem_cons_of_mem _ hg, hgp, hgu⟩
        · rintro (h | ⟨g, hg, hgp, hgu⟩)
          · exact Or.inl (Or.inl h)
          · rcases List.mem_cons.mp hg with rfl | hg'
            · exact Or.inl (Or.inr hgp.symm)
            · exact Or.inr ⟨g, hg', hgp, hgu⟩
      · rw [if_neg hu] at hv1
        refine ⟨v1, hv1, ?_⟩
        intro x
        rw [hiff1 x]
        constructor
        · rintro (h | ⟨g, hg, hgp, hgu⟩)
          · exact Or.inl h
          · exact Or.inr ⟨g, List.mem_cons_of_mem _ hg, hgp, hgu⟩
        · rintro (h | ⟨g, hg, hgp, hgu⟩)
          · exact Or.inl h
          · rcases List.mem_cons.mp hg with rfl | hg'
            · exact absurd hgu hu
            · exact Or.inr ⟨g, hg', hgp, hgu⟩

theorem lookupTag_init (tags : List Str) (u : Str) :
    lookupTag (tags.map (fun t => (t, ([] : List Str)))) u =
      if u ∈ tags then some [] else none := by
  induction tags with
  | nil => rw [if_neg (by simp)]; rfl
  | cons t rest ih =>
    rw [List.map_cons, lookupTag_cons, ih]
    by_cases h : t = u
    · rw [if_pos h, if_pos (h ▸ List.mem_cons_self _ _)]
    · rw [if_neg h]
      by_cases h2 : u ∈ rest
      · rw [if_pos h2, if_pos (List.mem_cons_of_mem _ h2)]
      · rw [if_neg h2, if_neg (by
          intro hc
          rcases List.mem_cons.mp hc with rfl | hc
          · exact h rfl
          · exact h2 hc)]

theorem build_spec {tfs : TagsForFiles} (h1 : TagsSuperset tfs) :
    ∃ m', build_tagged_files_map tfs false = .ok m' ∧
      (∀ u, (∃ v, lookupTag m' u = some v) ↔ u ∈ tfs.tags) ∧
      (∀ u v', lookupTag m' u = some v' →
        ∀ x, x ∈ v' ↔ ∃ f ∈ tfs.file_records, f.path = x ∧ u ∈ f.tags) := by
  have hinit : ∀ u, (∃ kv ∈ tfs.tags.map (fun t => (t, ([] : List Str))), kv.1 = u)
      ↔ u ∈ tfs.tags := by
    intro u
    constructor
    · rintro ⟨kv, hkv, rfl⟩
      rcases List.mem_map.mp hkv with ⟨t, ht, rfl⟩
      exact ht
    · intro hu
      exact ⟨(u, []), List.mem_map.mpr ⟨u, hu, rfl⟩, rfl⟩
  rcases btfm_spec tfs.file_records (tfs.tags.map (fun t => (t, ([] : List Str))))
      (fun f hf t ht => (hinit t).mpr (h1 f hf t ht)) with
    ⟨m', hm', hkeys, hspec⟩
  refine ⟨m', hm', ?_, ?_⟩
  · intro u
    constructor
    · rintro ⟨v, hv⟩
      exact (hinit u).mp ((hkeys u).mp (key_of_lookupTag_some hv))
    · intro hu
      exact lookupTag_some_of_key ((hkeys u).mpr ((hinit u).mpr hu))
  · intro u v' hv' x
    rcases hspec u v' hv' with ⟨v, hv, hiff⟩
    rw [lookupTag_init] at hv
    rw [hiff x]
    by_cases hu : u ∈ tfs.tags
    · rw [if_pos hu] at hv
      cases hv
      simp
    · rw [if_neg hu] at hv
      cases hv

theorem lookupAll_none {m : List (Str × List Str)} :
    ∀ {T : List Str} {t : Str}, t ∈ T → lookupTag m t = none →
      lookupAll m T = none := by
  intro T
  induction T with
  | nil => intro t h; cases h
  | cons a T' ih =>
    intro t ht hnone
    rcases List.mem_cons.mp ht with rfl | ht'
    · rw [lookupAll, hnone]
    · rw [lookupAll]
      cases h : lookupTag m a with
      | none => rfl
      | some s => rw [ih ht' hnone]; rfl

theorem lookupAll_mem_rel {m : List (Str × List Str)} :
    ∀ {T : List Str} {sets : List (List Str)}, lookupAll m T = some sets →
      (∀ b ∈ sets, ∃ t ∈ T, lookupTag m t = some b) ∧
      (∀ t ∈ T, ∃ b ∈ sets, lookupTag m t = some b) := by
  intro T
  induction T with
  | nil =>
    intro sets h
    cases h
    exact ⟨fun b hb => absurd hb (List.not_mem_nil b),
           fun t ht => absurd ht (List.not_mem_nil t)⟩
  | cons a T' ih =>
    intro sets h
    rw [lookupAll] at h
    cases ha : lookupTag m a with
    | none => rw [ha] at h; cases h
    | some s =>
      rw [ha] at h
      cases hrest : lookupAll m T' with
      | none => rw [hrest] at h; cases h
      | some sets' =>
        rw [hrest] at h
        simp only [Option.map_some'] at h
        cases h
        rcases ih hrest with ⟨ih1, ih2⟩
        constructor
        · intro b hb
          rcases List.mem_cons.mp hb with rfl | hb'
          · exact ⟨a, List.mem_cons_self _ _, ha⟩
          · rcases ih1 b hb' with ⟨t, ht, he⟩
            exact ⟨t, List.mem_cons_of_mem _ ht, he⟩
        · intro t ht
          rcases List.mem_cons.mp ht with rfl | ht'
          · exact ⟨s, List.mem_cons_self _ _, ha⟩
          · rcases ih2 t ht' with ⟨b, hb, he⟩
            exact ⟨b, List.mem_cons_of_mem _ hb, he⟩

theorem mem_foldl_inter :
    ∀ (bs : List (List Str)) (acc : List Str) (x : Str),
      x ∈ bs.foldl (fun acc b => acc.filter (fun y => y ∈ b)) acc ↔
        x ∈ acc ∧ ∀ b ∈ bs, x ∈ b := by
  intro bs
  induction bs with
  | nil => intro acc x; simp
  | cons b bs' ih =>
    intro acc x
    rw [List.foldl_cons, ih]
    simp only [List.mem_filter, decide_eq_true_eq, List.mem_cons]
    constructor
    · rintro ⟨⟨hacc, hb⟩, hrest⟩
      exact ⟨hacc, fun c hc => by
        rcases hc with rfl | hc
        · exact hb
        · exact hrest c hc⟩
    · rintro ⟨hacc, hall⟩
      exact ⟨⟨hacc, hall b (Or.inl rfl)⟩, fun c hc => hall c (Or.inr hc)⟩

theorem eq_of_map_nodup {α β : Type} {g : α → β} :
    ∀ {l : List α}, (l.map g).Nodup →
      ∀ a ∈ l, ∀ b ∈ l, g a = g b → a = b := by
  intro l
  induction l with
  | nil => intro _ a ha; cases ha
  | cons x rest ih =>
    intro hnd a ha b hb he
    rw [List.map_cons, List.nodup_cons] at hnd
    rcases List.mem_cons.mp ha with rfl | ha' <;>
      rcases List.mem_cons.mp hb with rfl | hb'
    · rfl
    · exact absurd (show g a ∈ List.map g rest from
        he.symm ▸ List.mem_map_of_mem g hb') hnd.1
    · exact absurd (show g b ∈ List.map g rest from
        he ▸ List.mem_map_of_mem g ha') hnd.1
    · exact ih hnd.2 a ha' b hb' he

theorem lookupAll_some_of_all {m : List (Str × List Str)} :
    ∀ {T : List Str}, (∀ t ∈ T, ∃ v, lookupTag m t = some v) →
      ∃ sets, lookupAll m T = some sets := by
  intro T
  induction T with
  | nil => intro _; exact ⟨[], rfl⟩
  | cons t T' ih =>
    intro h
    rcases h t (List.mem_cons_self _ _) with ⟨v, hv⟩
    rcases ih (fun u hu => h u (List.mem_cons_of_mem _ hu)) with ⟨sets', hsets'⟩
    refine ⟨v :: sets', ?_⟩
    rw [lookupAll, hv, hsets']
    rfl

theorem mem_interSets_of_lookupAll {m : List (Str × List Str)}
    {T : List Str} {sets : List (List Str)} (hT : T ≠ [])
    (h : lookupAll m T = some sets) (x : Str) :
    x ∈ interSets sets ↔ ∀ t ∈ T, ∃ v, lookupTag m t = some v ∧ x ∈ v := by
  cases T with
  | nil => exact absurd rfl hT
  | cons t0 T' =>
    rw [lookupAll] at h
    cases h0 : lookupTag m t0 with
    | none => rw [h0] at h; cases h
    | some s0 =>
      rw [h0] at h
      cases hrest : lookupAll m T' with
      | none => rw [hrest] at h; cases h
      | some sets' =>
        rw [hrest] at h
        simp only [Option.map_some'] at h
        cases h
        rcases lookupAll_mem_rel hrest with ⟨rel1, rel2⟩
        show x ∈ interSets (s0 :: sets') ↔ _
        rw [interSets, mem_foldl_inter]
        constructor
        · rintro ⟨hx0, hall⟩ t ht
          rcases List.mem_cons.mp ht with rfl | ht'
          · exact ⟨s0, h0, hx0⟩
          · rcases rel2 t ht' with ⟨b, hb, he⟩
            exact ⟨b, he, hall b hb⟩
        · intro hall
          constructor
          · rcases hall t0 (List.mem_cons_self _ _) with ⟨v, hv, hx⟩
            rw [h0] at hv
            injection hv with hv
            exact hv ▸ hx
          · intro b hb
            rcases rel1 b hb with ⟨t, ht, he⟩
            rcases hall t (List.mem_cons_of_mem _ ht) with ⟨v, hv, hx⟩
            rw [he] at hv
            injection hv with hv
            exact hv ▸ hx

/-- C2, corrected: provided every record's tag set is contained in the
index-level tag set (otherwise `build_tagged_files_map` raises `KeyError`,
see `C2_counterexample`) and record paths are pairwise distinct,
`get_matching_tagged_files` with `only_existing = False` succeeds and
returns exactly the paths of records whose tag set is a superset of `T`;
an empty `T` gives the empty result, and a `T` containing a tag outside
the index-level set gives the empty result with no error. -/
theorem C2_theorem (tfs : TagsForFiles) (T : List Str)
    (h1 : TagsSuperset tfs) (h2 : (tfs.file_records.map (·.path)).Nodup) :
    ∃ out, get_matching_tagged_files tfs T false = .ok out ∧
      (T = [] → out = []) ∧
      (T ≠ [] → ∀ p, p ∈ out ↔
        ∃ f ∈ tfs.file_records, f.path = p ∧ ∀ t ∈ T, t ∈ f.tags) ∧
      (∀ t ∈ T, t ∉ tfs.tags → out = []) := by
  by_cases hT : T = []
  · subst hT
    refine ⟨[], ?_, fun _ => rfl, fun h => absurd rfl h, fun t ht => absurd ht
      (List.not_mem_nil t)⟩
    rfl
  · rcases build_spec h1 with ⟨m', hm', hksome, hspec⟩
    have hTlen : ¬T.length = 0 := fun h => hT (List.length_eq_zero.mp h)
    by_cases hall : ∀ t ∈ T, t ∈ tfs.tags
    · rcases lookupAll_some_of_all
        (fun t ht => (hksome t).mpr (hall t ht)) with ⟨sets, hsets⟩
      refine ⟨interSets sets, ?_, fun h => absurd h hT, ?_, ?_⟩
      · unfold get_matching_tagged_files
        rw [if_neg hTlen, hm']
        simp only [hsets]
      · intro _ p
        rw [mem_interSets_of_lookupAll hT hsets]
        constructor
        · intro hfor
          cases T with
          | nil => exact absurd rfl hT
          | cons t0 T' =>
            rcases hfor t0 (List.mem_cons_self _ _) with ⟨v0, hv0, hx0⟩
            rcases (hspec t0 v0 hv0 p).mp hx0 with ⟨f0, hf0, hfp, hft⟩
            refine ⟨f0, hf0, hfp, ?_⟩
            intro t ht
            rcases hfor t ht with ⟨v, hv, hx⟩
            rcases (hspec t v hv p).mp hx with ⟨f, hf, hfp', hft'⟩
            have : f = f0 := eq_of_map_nodup h2 f hf f0 hf0 (by rw [hfp', hfp])
            exact this ▸ hft'
        · rintro ⟨f, hf, rfl, hmemT⟩
          intro t ht
          rcases (hksome t).mpr (hall t ht) with ⟨v, hv⟩
          exact ⟨v, hv, (hspec t v hv f.path).mpr ⟨f, hf, rfl, hmemT t ht⟩⟩
      · intro t ht htag
        exact absurd (hall t ht) htag
    · push_neg at hall
      rcases hall with ⟨t, ht, htag⟩
      have hnone : lookupTag m' t = none := by
        cases h : lookupTag m' t with
        | none => rfl
        | some v => exact absurd ((hksome t).mp ⟨v, h⟩) htag
      refine ⟨[], ?_, fun _ => rfl, ?_, fun _ _ _ => rfl⟩
      · unfold get_matching_tagged_files
        rw [if_neg hTlen, hm']
        simp only [lookupAll_none ht hnone]
      · intro _ p
        constructor
        · intro h
          exact absurd h (List.not_mem_nil p)
        · rintro ⟨f, hf, rfl, hmemT⟩
          exact absurd (h1 f hf t (hmemT t ht)) htag

/-- C2 witness: the corrected query characterisation on a concrete
two-record index, with `T = [a, b]`. -/
theorem C2_witness :
    ∃ out, get_matching_tagged_files
        ⟨["a".data, "b".data],
         [⟨0, "p".data, false, [], ["a".data, "b".data]⟩,
          ⟨1, "q".data, false, [], ["a".data]⟩]⟩
        ["a".data, "b".data] false = .ok out ∧
      (["a".data, "b".data] = ([] : List Str) → out = []) ∧
      (["a".data, "b".data] ≠ ([] : List Str) → ∀ p, p ∈ out ↔
        ∃ f ∈ [⟨0, "p".data, false, [], ["a".data, "b".data]⟩,
               (⟨1, "q".data, false, [], ["a".data]⟩ : FileRecord)],
          f.path = p ∧ ∀ t ∈ ["a".data, "b".data], t ∈ f.tags) ∧
      (∀ t ∈ ["a".data, "b".data],
        t ∉ ["a".data, "b".data] → out = []) :=
  C2_theorem _ _ (by decide) (by decide)

/-- C2 counterexample: an index whose single record carries tag `a` while
the index-level tag set is empty.  The record's tag set is a superset of
`T = [a]`, so the claim demands the result `{p}` with no error — but
`build_tagged_files_map` raises `KeyError`, which propagates out of
`get_matching_tagged_files` uncaught. -/
theorem C2_counterexample :
    get_matching_tagged_files ⟨[], [⟨0, "p".data, false, [], ["a".data]⟩]⟩
        ["a".data] false = .error "KeyError".data ∧
      "a".data ∈ (FileRecord.mk 0 "p".data false [] ["a".data]).tags := by
  exact ⟨rfl, by decide⟩

/-! ### Claim C5: the wrapping algorithm -/

/-- A line rendered from its tokens, single-space separated. -/
def renderLine (cur : List Str) : Str := pyJoinWith [' '] cur

/-- The wrapping algorithm exactly as the specification words it:
greedily pack tokens while `current_line_length + next_token_length <
column_width` (the current line's rendered length), placing a token that
does not fit an empty line alone on its own line. -/
def claimWrapGo (cols : Nat) : List Str → List Str → List Str → List Str
  | [], lines, cur => if cur = [] then lines else lines ++ [renderLine cur]
  | t :: ts, lines, cur =>
    if (renderLine cur).length + t.length < cols then
      claimWrapGo cols ts lines (cur ++ [t])
    else if cur = [] then claimWrapGo cols ts (lines ++ [t]) []
    else claimWrapGo cols ts (lines ++ [renderLine cur]) [t]

/-- `paragraph_wrap` as the specification describes it. -/
def claimWrap (text : Str) (cols : Nat) : Str :=
  pyJoinWith ['\n'] (claimWrapGo cols (pySplitWs text) [] [])

/-- The length of the accumulator `build` representing the current line:
its rendered length, plus one for the leading space that `build` carries
on the first line. -/
def lineLen (cur : List Str) (first : Bool) : Nat :=
  if cur = [] then 0 else (renderLine cur).length + (if first then 1 else 0)

/-- The amended wrapping algorithm: as `claimWrapGo`, except that the
packing condition charges the first line one extra character (the leading
space of the accumulator) and a token that does not fit an empty line is
emitted with a single leading space. -/
def amendedWrapGo (cols : Nat) :
    List Str → List Str → List Str → Bool → List Str
  | [], lines, cur, _ => if cur = [] then lines else lines ++ [renderLine cur]
  | t :: ts, lines, cur, first =>
    if lineLen cur first + t.length < cols then
      amendedWrapGo cols ts lines (cur ++ [t]) first
    else if cur = [] then
      amendedWrapGo cols ts (lines ++ [' ' :: t]) [] first
    else amendedWrapGo cols ts (lines ++ [renderLine cur]) [t] false

def amendedWrap (tokens : List Str) (cols : Nat) : Str :=
  pyJoinWith ['\n'] (amendedWrapGo cols tokens [] [] true)

theorem renderLine_cons_cons (t u : Str) (rest : List Str) :
    renderLine (t :: u :: rest) = t ++ ' ' :: renderLine (u :: rest) := by
  show pyJoinWith [' '] (t :: u :: rest) = _
  rw [pyJoinWith, List.append_assoc]
  rfl

theorem renderLine_append_single {cur : List Str} (h : cur ≠ []) (t : Str) :
    renderLine (cur ++ [t]) = renderLine cur ++ ' ' :: t := by
  induction cur with
  | nil => exact absurd rfl h
  | cons a rest ih =>
    cases rest with
    | nil =>
      show pyJoinWith [' '] [a, t] = pyJoinWith [' '] [a] ++ ' ' :: t
      rw [pyJoinWith, pyJoinWith, pyJoinWith, List.append_assoc]
      rfl
    | cons b rest' =>
      rw [List.cons_append, List.cons_append, renderLine_cons_cons]
      rw [List.cons_append] at ih
      rw [ih (by simp), renderLine_cons_cons, List.append_assoc]
      rfl

theorem renderLine_boundary {cur : List Str} (hne : cur ≠ [])
    (h : ∀ t ∈ cur, t ≠ [] ∧ wsFree t) :
    renderLine cur ≠ [] ∧
    (∀ c, (renderLine cur).head? = some c → isPySpace c = false) ∧
    (∀ c, (renderLine cur).getLast? = some c → isPySpace c = false) := by
  induction cur with
  | nil => exact absurd rfl hne
  | cons t rest ih =>
    cases rest with
    | nil =>
      have ht := h t (List.mem_cons_self _ _)
      refine ⟨ht.1, ?_, ?_⟩
      · intro c hc
        have hc' : t.head? = some c := hc
        exact ht.2 c (List.mem_of_mem_head? (by rw [hc']; exact rfl))
      · intro c hc
        have hc' : t.getLast? = some c := hc
        exact ht.2 c (List.mem_of_mem_getLast? (by rw [hc']; exact rfl))
    | cons u rest' =>
      have ht := h t (List.mem_cons_self _ _)
      have hrec := ih (by simp) (fun x hx => h x (List.mem_cons_of_mem _ hx))
      rw [renderLine_cons_cons]
      refine ⟨by simp [ht.1], ?_, ?_⟩
      · intro c hc
        cases te : t with
        | nil => exact absurd te ht.1
        | cons c0 t' =>
          rw [te, List.cons_append, List.head?_cons] at hc
          injection hc with hc
          exact ht.2 c (by rw [te, ← hc]; exact List.mem_cons_self _ _)
      · intro c hc
        obtain ⟨y, hy⟩ : ∃ y, (renderLine (u :: rest')).getLast? = some y := by
          rcases Option.isSome_iff_exists.mp
            (List.getLast?_isSome.mpr hrec.1) with ⟨y, hy⟩
          exact ⟨y, hy⟩
        have h1 : (' ' :: renderLine (u :: rest')).getLast? = some y := by
          rw [show (' ' :: renderLine (u :: rest')) =
                [' '] ++ renderLine (u :: rest') from rfl,
              List.getLast?_append, hy]
          rfl
        rw [List.getLast?_append, h1] at hc
        have hyc : some y = some c := hc
        injection hyc with hyc
        exact hrec.2.2 c (hyc ▸ hy)

/-- The accumulator string `build` corresponding to the current line:
empty for an empty line, otherwise the rendered line, with a leading
space while on the first line. -/
def buildOf (cur : List Str) (first : Bool) : Str :=
  if cur = [] then [] else (if first then [' '] else []) ++ renderLine cur

theorem buildOf_length (cur : List Str) (first : Bool) :
    (buildOf cur first).length = lineLen cur first := by
  unfold buildOf lineLen
  by_cases hc : cur = []
  · rw [if_pos hc, if_pos hc]
    rfl
  · rw [if_neg hc, if_neg hc, List.length_append]
    cases first <;> simp [Nat.add_comm]

theorem buildOf_append {cur : List Str} {first : Bool} (t : Str)
    (hfc : cur = [] → first = true) :
    buildOf cur first ++ [' '] ++ t = buildOf (cur ++ [t]) first := by
  unfold buildOf
  by_cases hc : cur = []
  · subst hc
    rw [if_pos rfl, if_neg (show ¬(([] : List Str) ++ [t] = []) by simp),
        hfc rfl, if_pos rfl]
    rfl
  · rw [if_neg hc, if_neg (show ¬(cur ++ [t] = []) by simp),
        renderLine_append_single hc, List.append_assoc, List.append_assoc]
    rfl

theorem pyStrip_buildOf {cur : List Str} {first : Bool} (hne : cur ≠ [])
    (h : ∀ t ∈ cur, t ≠ [] ∧ wsFree t) :
    pyStrip (buildOf cur first) = renderLine cur := by
  rcases renderLine_boundary hne h with ⟨_, hh, hl⟩
  unfold buildOf
  rw [if_neg hne]
  cases first with
  | false => exact pyStrip_eq_self hh hl
  | true =>
    show pyStrip (' ' :: renderLine cur) = _
    exact pyStrip_cons_space hh hl

theorem buildOf_ne_nil {cur : List Str} {first : Bool} (hne : cur ≠ [])
    (h : ∀ t ∈ cur, t ≠ [] ∧ wsFree t) :
    buildOf cur first ≠ [] := by
  rcases renderLine_boundary hne h with ⟨hr, _, _⟩
  unfold buildOf
  rw [if_neg hne]
  cases first <;> simp [hr]

/-- The trailing `if len(build) > 0` of `paragraph_wrap`. -/
def wrapFinish (st : List Str × Str) : List Str :=
  if st.2.length > 0 then st.1 ++ [pyStrip st.2] else st.1

theorem wrap_fold_go (cols : Nat) :
    ∀ (ts : List Str) (lines : List Str) (cur : List Str) (first : Bool),
      (∀ t ∈ ts, t ≠ [] ∧ wsFree t) →
      (∀ t ∈ cur, t ≠ [] ∧ wsFree t) →
      (cur = [] → first = true) →
      wrapFinish (ts.foldl (wrapStep cols) (lines, buildOf cur first)) =
        amendedWrapGo cols ts lines cur first := by
  intro ts
  induction ts with
  | nil =>
    intro lines cur first _ hcur hfc
    rw [List.foldl_nil, amendedWrapGo, wrapFinish]
    by_cases hc : cur = []
    · rw [if_pos hc, if_neg (by simp [buildOf, hc])]
    · rw [if_neg hc,
          if_pos (by
            simp only [List.length_pos]
            exact buildOf_ne_nil hc hcur),
          pyStrip_buildOf hc hcur]
  | cons t ts' ih =>
    intro lines cur first hts hcur hfc
    have ht := hts t (List.mem_cons_self _ _)
    have hts' := fun u hu => hts u (List.mem_cons_of_mem _ hu)
    rw [List.foldl_cons, amendedWrapGo]
    by_cases hcond : lineLen cur first + t.length < cols
    · rw [if_pos hcond]
      have hstep : wrapStep cols (lines, buildOf cur first) t =
          (lines, buildOf (cur ++ [t]) first) := by
        unfold wrapStep
        rw [if_neg (by simpa using ht.1),
            if_pos (by rw [buildOf_length]; exact hcond)]
        rw [pyStrip_wsFree ht.2, buildOf_append t hfc]
      rw [hstep]
      exact ih lines (cur ++ [t]) first hts'
        (by
          intro u hu
          rcases List.mem_append.mp hu with hu | hu
          · exact hcur u hu
          · rcases List.mem_singleton.mp hu with rfl
            exact ht)
        (by simp)
    · rw [if_neg hcond]
      by_cases hc : cur = []
      · subst hc
        rw [if_pos rfl]
        have hstep : wrapStep cols (lines, buildOf [] first) t =
            (lines ++ [' ' :: t], buildOf [] first) := by
          unfold wrapStep
          rw [if_neg (by simpa using ht.1),
              if_neg (by rw [buildOf_length]; exact hcond),
              if_pos (show buildOf [] first = [] by simp [buildOf]),
              pyStrip_wsFree ht.2]
          rfl
        rw [hstep]
        exact ih (lines ++ [' ' :: t]) [] first hts'
          (by intro u hu; cases hu) hfc
      · rw [if_neg hc]
        have hstep : wrapStep cols (lines, buildOf cur first) t =
            (lines ++ [renderLine cur], buildOf [t] false) := by
          unfold wrapStep
          rw [if_neg (by simpa using ht.1),
              if_neg (by rw [buildOf_length]; exact hcond),
              if_neg (buildOf_ne_nil hc hcur),
              pyStrip_buildOf hc hcur]
          rfl
        rw [hstep]
        exact ih (lines ++ [renderLine cur]) [t] false hts'
          (by
            intro u hu
            rcases List.mem_singleton.mp hu with rfl
            exact ht)
          (by simp)

/-- C5, corrected: on every text whose space-separated tokens are free of
other whitespace, `paragraph_wrap` implements the greedy algorithm with
the *amended* packing condition: the accumulated line keeps a leading
space while on the first output line (so the first line effectively packs
one character less), and a token that does not fit an empty line is
emitted alone with a single leading space.  The documented example at
width 20 holds. -/
theorem C5_theorem :
    (∀ (text : Str) (cols : Nat),
      (∀ t ∈ (pySplitOn ' ' text).filter (fun c => c.length > 0), wsFree t) →
      paragraph_wrap text cols =
        amendedWrap ((pySplitOn ' ' text).filter (fun c => c.length > 0)) cols) ∧
    paragraph_wrap "england expects every man to do his duty".data 20 =
      "england expects\nevery man to do his\nduty".data := by
  constructor
  · intro text cols hws
    exact congrArg (pyJoinWith ['\n'])
      (wrap_fold_go cols ((pySplitOn ' ' text).filter (fun c => c.length > 0))
        [] [] true
        (fun t ht => ⟨by
            have h2 := (List.mem_filter.mp ht).2
            simp only [decide_eq_true_eq] at h2
            exact List.length_pos.mp h2,
          hws t ht⟩)
        (fun t ht => absurd ht (List.not_mem_nil t))
        (fun _ => rfl))
  · decide

/-- C5 witness: the amended equivalence at the documented example. -/
theorem C5_witness :
    paragraph_wrap "england expects every man to do his duty".data 20 =
      amendedWrap ((pySplitOn ' '
        "england expects every man to do his duty".data).filter
          (fun c => c.length > 0)) 20 :=
  C5_theorem.1 _ 20 (by decide)

/-- C5 counterexample: the algorithm exactly as the claim words it
(`claimWrapGo`, packing while rendered line length + token length <
width) would return `"ab cd"` at width 5 — `2 + 2 < 5` — but
`paragraph_wrap` returns `"ab\ncd"`, because its accumulator carries a
leading space on the first line (`len(' ab') + len('cd') = 5 ≮ 5`). -/
theorem C5_counterexample :
    paragraph_wrap "ab cd".data 5 ≠ claimWrap "ab cd".data 5 ∧
      paragraph_wrap "ab cd".data 5 = "ab\ncd".data ∧
      claimWrap "ab cd".data 5 = "ab cd".data := by
  refine ⟨by decide, by decide, by decide⟩

/-! ### Claim C1: serialize / re-parse round trip -/

theorem splitOnAux_nil (sep : Char) (acc : Str) :
    splitOnAux sep [] acc = [acc.reverse] := rfl

theorem splitOnAux_sep (sep : Char) (b acc : Str) :
    splitOnAux sep (sep :: b) acc = acc.reverse :: splitOnAux sep b [] := by
  rw [splitOnAux, if_pos rfl]

theorem splitOnAux_cons {sep c : Char} (hc : ¬ c = sep) (b acc : Str) :
    splitOnAux sep (c :: b) acc = splitOnAux sep b (c :: acc) := by
  rw [splitOnAux, if_neg hc]

theorem splitOnAux_append (sep : Char) (b : Str) :
    ∀ (a : Str) (acc : Str),
      splitOnAux sep (a ++ sep :: b) acc =
        splitOnAux sep a acc ++ pySplitOn sep b := by
  intro a
  induction a with
  | nil =>
    intro acc
    rw [List.nil_append, splitOnAux_sep, splitOnAux_nil]
    rfl
  | cons c a' ih =>
    intro acc
    by_cases hc : c = sep
    · subst hc
      rw [List.cons_append, splitOnAux_sep, splitOnAux_sep, ih]
      rfl
    · rw [List.cons_append, splitOnAux_cons hc, splitOnAux_cons hc, ih]

theorem pySplitOn_append (sep : Char) (a b : Str) :
    pySplitOn sep (a ++ sep :: b) = pySplitOn sep a ++ pySplitOn sep b :=
  splitOnAux_append sep b a []

theorem splitOnAux_no_sep {sep : Char} :
    ∀ {s : Str} (acc : Str), sep ∉ s →
      splitOnAux sep s acc = [acc.reverse ++ s] := by
  intro s
  induction s with
  | nil =>
    intro acc _
    rw [splitOnAux_nil]
    simp
  | cons c s' ih =>
    intro acc h
    have hc : ¬ c = sep := fun hcs => h (List.mem_cons.mpr (Or.inl hcs.symm))
    rw [splitOnAux_cons hc, ih (c :: acc) (fun hm => h (List.mem_cons_of_mem _ hm))]
    simp

theorem pySplitOn_no_sep {sep : Char} {s : Str} (h : sep ∉ s) :
    pySplitOn sep s = [s] := by
  rw [pySplitOn, splitOnAux_no_sep [] h]
  rfl

theorem pySplitOn_join {sep : Char} :
    ∀ {ls : List Str}, ls ≠ [] → (∀ ℓ ∈ ls, sep ∉ ℓ) →
      pySplitOn sep (pyJoinWith [sep] ls) = ls := by
  intro ls
  induction ls with
  | nil => intro h; exact absurd rfl h
  | cons x rest ih =>
    intro _ h
    cases rest with
    | nil =>
      show pySplitOn sep (pyJoinWith [sep] [x]) = [x]
      rw [pyJoinWith]
      exact pySplitOn_no_sep (h x (List.mem_cons_self _ _))
    | cons y rest' =>
      rw [pyJoinWith, List.append_assoc]
      show pySplitOn sep (x ++ sep :: pyJoinWith [sep] (y :: rest')) = _
      rw [pySplitOn_append, pySplitOn_no_sep (h x (List.mem_cons_self _ _)),
          ih (by simp) (fun ℓ hℓ => h ℓ (List.mem_cons_of_mem _ hℓ))]
      rfl

theorem splitWsAux_nil (acc : Str) :
    splitWsAux [] acc = if acc = [] then [] else [acc.reverse] := rfl

theorem splitWsAux_ws {c : Char} (hc : isPySpace c = true) (b acc : Str) :
    splitWsAux (c :: b) acc =
      if acc = [] then splitWsAux b [] else acc.reverse :: splitWsAux b [] := by
  rw [splitWsAux, if_pos hc]

theorem splitWsAux_cons {c : Char} (hc : ¬ isPySpace c = true) (b acc : Str) :
    splitWsAux (c :: b) acc = splitWsAux b (c :: acc) := by
  rw [splitWsAux, if_neg hc]

theorem splitWsAux_append_space (b : Str) :
    ∀ (a : Str) (acc : Str),
      splitWsAux (a ++ ' ' :: b) acc = splitWsAux a acc ++ splitWsAux b [] := by
  intro a
  induction a with
  | nil =>
    intro acc
    rw [List.nil_append, splitWsAux_ws (show isPySpace ' ' = true from rfl), splitWsAux_nil]
    by_cases h : acc = []
    · rw [if_pos h, if_pos h, List.nil_append]
    · rw [if_neg h, if_neg h]
      rfl
  | cons c a' ih =>
    intro acc
    by_cases hc : isPySpace c = true
    · rw [List.cons_append, splitWsAux_ws hc, splitWsAux_ws hc]
      by_cases h : acc = []
      · rw [if_pos h, if_pos h, ih]
      · rw [if_neg h, if_neg h, ih]
        rfl
    · rw [List.cons_append, splitWsAux_cons hc, splitWsAux_cons hc, ih]

theorem pySplitWs_append_space (a b : Str) :
    pySplitWs (a ++ ' ' :: b) = pySplitWs a ++ pySplitWs b :=
  splitWsAux_append_space b a []

theorem splitWsAux_wsFree {t : Str} (h1 : t ≠ []) (h2 : wsFree t) :
    ∀ acc, splitWsAux t acc = [acc.reverse ++ t] := by
  induction t with
  | nil => exact absurd rfl h1
  | cons c t' ih =>
    intro acc
    rw [splitWsAux_cons (by rw [h2 c (List.mem_cons_self _ _)]; exact Bool.false_ne_true)]
    by_cases ht' : t' = []
    · subst ht'
      rw [splitWsAux_nil, if_neg (by simp)]
      simp
    · rw [ih ht' (fun x hx => h2 x (List.mem_cons_of_mem _ hx)) (c :: acc)]
      simp

theorem pySplitWs_wsFree {t : Str} (h1 : t ≠ []) (h2 : wsFree t) :
    pySplitWs t = [t] := by
  rw [pySplitWs, splitWsAux_wsFree h1 h2 []]
  rfl

theorem pySplitWs_renderLine :
    ∀ {g : List Str}, g ≠ [] → (∀ t ∈ g, t ≠ [] ∧ wsFree t) →
      pySplitWs (renderLine g) = g := by
  intro g
  induction g with
  | nil => intro h; exact absurd rfl h
  | cons t rest ih =>
    intro _ h
    cases rest with
    | nil =>
      show pySplitWs (renderLine [t]) = [t]
      exact pySplitWs_wsFree (h t (List.mem_cons_self _ _)).1
        (h t (List.mem_cons_self _ _)).2
    | cons u rest' =>
      rw [renderLine_cons_cons, pySplitWs_append_space,
          pySplitWs_wsFree (h t (List.mem_cons_self _ _)).1
            (h t (List.mem_cons_self _ _)).2,
          ih (by simp) (fun x hx => h x (List.mem_cons_of_mem _ hx))]
      rfl

theorem mem_renderLine {c : Char} :
    ∀ {g : List Str}, c ∈ renderLine g → c = ' ' ∨ ∃ t ∈ g, c ∈ t := by
  intro g
  induction g with
  | nil => intro h; cases h
  | cons t rest ih =>
    intro h
    cases rest with
    | nil =>
      exact Or.inr ⟨t, List.mem_cons_self _ _, h⟩
    | cons u rest' =>
      rw [renderLine_cons_cons] at h
      rcases List.mem_append.mp h with h | h
      · exact Or.inr ⟨t, List.mem_cons_self _ _, h⟩
      · rcases List.mem_cons.mp h with rfl | h
        · exact Or.inl rfl
        · rcases ih h with h | ⟨x, hx, hc⟩
          · exact Or.inl h
          · exact Or.inr ⟨x, List.mem_cons_of_mem _ hx, hc⟩

theorem pyStrip_space_wsFree {t : Str} (h : wsFree t) : pyStrip (' ' :: t) = t := by
  apply pyStrip_cons_space
  · intro c hc
    exact h c (List.mem_of_mem_head? (by rw [hc]; exact rfl))
  · intro c hc
    exact h c (List.mem_of_mem_getLast? (by rw [hc]; exact rfl))

theorem pyStrip_renderLine {g : List Str} (hne : g ≠ [])
    (h : ∀ t ∈ g, t ≠ [] ∧ wsFree t) : pyStrip (renderLine g) = renderLine g := by
  rcases renderLine_boundary hne h with ⟨_, hh, hl⟩
  exact pyStrip_eq_self hh hl

theorem newline_not_mem_renderLine {g : List Str}
    (h : ∀ t ∈ g, t ≠ [] ∧ wsFree t) : '\n' ∉ renderLine g := by
  intro hm
  rcases mem_renderLine hm with hc | ⟨t, ht, hc⟩
  · exact absurd hc (by decide)
  · have := (h t ht).2 '\n' hc
    simp [isPySpace] at this

/-- Structure of the lines produced by the (amended) wrapping loop: every
produced line strips to a rendered group of consecutive tokens, the groups
partition the input tokens in order, and no produced line contains a
newline. -/
theorem amendedWrapGo_struct (cols : Nat) :
    ∀ (ts : List Str) (lines : List Str) (cur : List Str) (first : Bool),
      (∀ t ∈ ts, t ≠ [] ∧ wsFree t) →
      (∀ t ∈ cur, t ≠ [] ∧ wsFree t) →
      ∃ (ls : List Str) (groups : List (List Str)),
        amendedWrapGo cols ts lines cur first = lines ++ ls ∧
        ls.map pyStrip = groups.map renderLine ∧
        groups.flatten = cur ++ ts ∧
        (∀ g ∈ groups, g ≠ [] ∧ ∀ t ∈ g, t ≠ [] ∧ wsFree t) ∧
        (∀ ℓ ∈ ls, '\n' ∉ ℓ) := by
  intro ts
  induction ts with
  | nil =>
    intro lines cur first _ hcur
    by_cases hc : cur = []
    · refine ⟨[], [], ?_, rfl, ?_, ?_, ?_⟩
      · rw [amendedWrapGo, if_pos hc, List.append_nil]
      · rw [hc]; rfl
      · intro g hg; cases hg
      · intro ℓ hℓ; cases hℓ
    · refine ⟨[renderLine cur], [cur], ?_, ?_, ?_, ?_, ?_⟩
      · rw [amendedWrapGo, if_neg hc]
      · show [pyStrip (renderLine cur)] = _
        rw [pyStrip_renderLine hc hcur]
        rfl
      · show cur ++ [] = cur ++ []
        rfl
      · intro g hg
        rcases List.mem_singleton.mp hg with rfl
        exact ⟨hc, hcur⟩
      · intro ℓ hℓ
        rcases List.mem_singleton.mp hℓ with rfl
        exact newline_not_mem_renderLine hcur
  | cons t ts' ih =>
    intro lines cur first hts hcur
    have ht := hts t (List.mem_cons_self _ _)
    have hts' := fun u hu => hts u (List.mem_cons_of_mem _ hu)
    by_cases hcond : lineLen cur first + t.length < cols
    · rcases ih lines (cur ++ [t]) first hts'
        (by
          intro u hu
          rcases List.mem_append.mp hu with hu | hu
          · exact hcur u hu
          · rcases List.mem_singleton.mp hu with rfl
            exact ht) with ⟨ls, groups, h1, h2, h3, h4, h5⟩
      refine ⟨ls, groups, ?_, h2, ?_, h4, h5⟩
      · rw [amendedWrapGo, if_pos hcond, h1]
      · rw [h3, List.append_assoc]
        rfl
    · by_cases hc : cur = []
      · subst hc
        rcases ih (lines ++ [' ' :: t]) [] first hts'
          (fun u hu => absurd hu (List.not_mem_nil u)) with
          ⟨ls, groups, h1, h2, h3, h4, h5⟩
        refine ⟨(' ' :: t) :: ls, [t] :: groups, ?_, ?_, ?_, ?_, ?_⟩
        · rw [amendedWrapGo, if_neg hcond, if_pos rfl, h1, List.append_assoc]
          rfl
        · show pyStrip (' ' :: t) :: ls.map pyStrip = renderLine [t] :: _
          rw [pyStrip_space_wsFree ht.2, h2]
          rfl
        · show [t] ++ groups.flatten = t :: ts'
          rw [h3]
          rfl
        · intro g hg
          rcases List.mem_cons.mp hg with rfl | hg
          · exact ⟨by simp, by
              intro u hu
              rcases List.mem_singleton.mp hu with rfl
              exact ht⟩
          · exact h4 g hg
        · intro ℓ hℓ
          rcases List.mem_cons.mp hℓ with rfl | hℓ
          · intro hm
            rcases List.mem_cons.mp hm with hm | hm
            · exact absurd hm (by decide)
            · have := ht.2 '\n' hm
              simp [isPySpace] at this
          · exact h5 ℓ hℓ
      · rcases ih (lines ++ [renderLine cur]) [t] false hts'
          (by
            intro u hu
            rcases List.mem_singleton.mp hu with rfl
            exact ht) with ⟨ls, groups, h1, h2, h3, h4, h5⟩
        refine ⟨renderLine cur :: ls, cur :: groups, ?_, ?_, ?_, ?_, ?_⟩
        · rw [amendedWrapGo, if_neg hcond, if_neg hc, h1, List.append_assoc]
          rfl
        · show pyStrip (renderLine cur) :: ls.map pyStrip = _
          rw [pyStrip_renderLine hc hcur, h2]
          rfl
        · show cur ++ groups.flatten = cur ++ t :: ts'
          rw [h3]
          rfl
        · intro g hg
          rcases List.mem_cons.mp hg with rfl | hg
          · exact ⟨hc, hcur⟩
          · exact h4 g hg
        · intro ℓ hℓ
          rcases List.mem_cons.mp hℓ with rfl | hℓ
          · exact newline_not_mem_renderLine hcur
          · exact h5 ℓ hℓ

theorem pySetUnion_nil (s : List Str) : pySetUnion s [] = s := rfl

theorem pySetUnion_append (s a b : List Str) :
    pySetUnion (pySetUnion s a) b = pySetUnion s (a ++ b) :=
  (List.foldl_append ..).symm

theorem pySetUnion_eq_append :
    ∀ {xs s : List Str}, (s ++ xs).Nodup → pySetUnion s xs = s ++ xs := by
  intro xs
  induction xs with
  | nil =>
    intro s _
    rw [pySetUnion_nil, List.append_nil]
  | cons x rest ih =>
    intro s h
    have hx : x ∉ s := by
      intro hm
      rcases List.nodup_append.mp h with ⟨_, _, hdis⟩
      exact hdis hm (List.mem_cons_self _ _)
    show pySetUnion (pySetAdd s x) rest = s ++ x :: rest
    rw [pySetAdd, if_neg hx, ih (by
      rw [List.append_assoc]
      have : s ++ [x] ++ rest = s ++ x :: rest := by simp
      rw [List.append_assoc] at this
      rw [this]
      exact h)]
    simp

theorem listModify_append_last :
    ∀ (l : List α) (a : α) (g : α → α),
      listModify (l ++ [a]) l.length g = l ++ [g a] := by
  intro l
  induction l with
  | nil => intro a g; rfl
  | cons b l' ih =>
    intro a g
    show b :: listModify (l' ++ [a]) l'.length g = b :: (l' ++ [g a])
    rw [ih]

theorem map_pyStrip_wsFree {l : List Str} (h : ∀ t ∈ l, wsFree t) :
    l.map pyStrip = l := by
  rw [List.map_congr_left (fun t ht => pyStrip_wsFree (h t ht))]
  simp

theorem joinSpace_tokens {ts : List Str} (hne : ts ≠ [])
    (h : ∀ t ∈ ts, t ≠ [] ∧ wsFree t) :
    (pySplitOn ' ' (pyJoinWith [' '] ts)).filter (fun c => c.length > 0) = ts := by
  have hsp : ∀ t ∈ ts, ' ' ∉ t := by
    intro t ht hc
    have := (h t ht).2 ' ' hc
    simp [isPySpace] at this
  rw [pySplitOn_join hne hsp]
  exact List.filter_eq_self.mpr
    (fun t ht => by simpa using List.length_pos.mpr (h t ht).1)

theorem renderLine_head {t : Str} (rest : List Str) (h : t ≠ []) :
    (renderLine (t :: rest)).head? = t.head? := by
  cases rest with
  | nil => rfl
  | cons u rest' =>
    rw [renderLine_cons_cons]
    cases t with
    | nil => exact absurd rfl h
    | cons c t' => rfl

theorem import_step_blank {probe : Str → Bool} {line : Str}
    (h : pyStrip line = []) (tfs : TagsForFiles) (wp wt : Bool) (r₀ : Option Nat) : import_step
    probe ⟨tfs, wp, wt, r₀⟩ line = .ok ⟨tfs, true, false, r₀⟩ := by
  unfold import_step
  rw [if_pos (by rw [h]; rfl)]

theorem import_step_comment {probe : Str → Bool} {line : Str}
    (h1 : (pyStrip line).head? = some '#')
    (tfs : TagsForFiles) (wp : Bool) (i : Nat) : import_step
    probe ⟨tfs, wp, true, some i⟩ line =
      .ok ⟨⟨tfs.tags, listModify tfs.file_records i
          (fun f => {f with comments := f.comments ++ [pyStrip line]})⟩,
        wp, true, some i⟩ := by
  have h0 : pyStrip line ≠ [] := by
    intro he
    rw [he] at h1
    cases h1
  unfold import_step
  rw [if_neg (fun hl => h0 (List.length_eq_zero.mp hl)), if_pos h1, if_pos rfl]

theorem import_step_path {probe : Str → Bool} {line : Str} {tfs tfs' : TagsForFiles} {i : Nat}
    (h0 : pyStrip line ≠ []) (h1 : (pyStrip line).head? ≠ some '#')
    (hap : add_path probe tfs (pyStrip line) = (tfs', i)) (wt : Bool) (r₀ : Option Nat) : import_step
    probe ⟨tfs, true, wt, r₀⟩ line = .ok ⟨tfs', false, true, some i⟩ := by
  unfold import_step
  rw [if_neg (fun hl => h0 (List.length_eq_zero.mp hl)), if_neg h1, if_pos rfl, hap]

theorem import_step_tags {probe : Str → Bool} {line : Str}
    (h0 : pyStrip line ≠ []) (h1 : (pyStrip line).head? ≠ some '#')
    (tfs : TagsForFiles) (i : Nat) : import_step
    probe ⟨tfs, false, true, some i⟩ line =
      .ok ⟨⟨pySetUnion tfs.tags ((pySplitWs (pyStrip line)).map pyStrip),
          listModify tfs.file_records i
            (fun f => {f with tags := pySetUnion f.tags ((pySplitWs (pyStrip line)).map pyStrip)})⟩,
        false, true, some i⟩ := by
  unfold import_step
  rw [if_neg (fun hl => h0 (List.length_eq_zero.mp hl)), if_neg h1,
      if_neg (show ¬(false = true) by simp), if_pos rfl]

theorem parse_comment_lines {probe : Str → Bool} :
    ∀ (cs rest gtags : List Str) (pre : List FileRecord) (r : FileRecord) (wp : Bool),
      (∀ c ∈ cs, pyStrip c = c ∧ c.head? = some '#') → import_lines
      probe ⟨⟨gtags, pre ++ [r]⟩, wp, true, some pre.length⟩ (cs ++ rest) = import_lines
        probe
          ⟨⟨gtags, pre ++ [{r with comments := r.comments ++ cs}]⟩, wp, true, some pre.length⟩
          rest := by
  intro cs
  induction cs with
  | nil =>
    intro rest gtags pre r wp _
    rw [List.nil_append, List.append_nil]
  | cons c cs' ih =>
    intro rest gtags pre r wp h
    have hc := h c (List.mem_cons_self _ _)
    rw [List.cons_append, import_lines, import_step_comment
        (show (pyStrip c).head? = some '#' by rw [hc.1]; exact hc.2)
          ⟨gtags, pre ++ [r]⟩ wp pre.length]
    show import_lines probe
        ⟨⟨gtags, listModify (pre ++ [r]) pre.length
            (fun f => {f with comments := f.comments ++ [pyStrip c]})⟩,
          wp, true, some pre.length⟩ (cs' ++ rest) = _
    rw [listModify_append_last, hc.1,
        ih rest gtags pre {r with comments := r.comments ++ [c]} wp
          (fun x hx => h x (List.mem_cons_of_mem _ hx))]
    rw [List.append_assoc]
    rfl

theorem parse_tag_lines {probe : Str → Bool} :
    ∀ (ls : List Str) (groups : List (List Str)) (rest gtags : List Str)
      (pre : List FileRecord) (r : FileRecord),
      ls.map pyStrip = groups.map renderLine →
      (∀ g ∈ groups, g ≠ [] ∧ ∀ t ∈ g, t ≠ [] ∧ wsFree t ∧ t.head? ≠ some '#') → import_lines
      probe ⟨⟨gtags, pre ++ [r]⟩, false, true, some pre.length⟩ (ls ++ rest) = import_lines
        probe
          ⟨⟨pySetUnion gtags groups.flatten,
            pre ++ [{r with tags := pySetUnion r.tags groups.flatten}]⟩,
            false, true, some pre.length⟩ rest := by
  intro ls
  induction ls with
  | nil =>
    intro groups rest gtags pre r hmap _
    have hg : groups = [] :=
      List.map_eq_nil_iff.mp (show groups.map renderLine = [] from hmap.symm)
    subst hg
    rw [List.nil_append]
    rfl
  | cons ℓ ls' ih =>
    intro groups rest gtags pre r hmap hgroups
    cases groups with
    | nil => cases hmap
    | cons g gs' =>
      rw [List.map_cons, List.map_cons] at hmap
      have hstr : pyStrip ℓ = renderLine g := by
        injection hmap with h1 _
      have htl : ls'.map pyStrip = gs'.map renderLine := by
        injection hmap with _ h2
      have hg := hgroups g (List.mem_cons_self _ _)
      have htok : ∀ t ∈ g, t ≠ [] ∧ wsFree t :=
        fun t ht => ⟨(hg.2 t ht).1, (hg.2 t ht).2.1⟩
      have h0 : pyStrip ℓ ≠ [] := by
        rw [hstr]
        exact (renderLine_boundary hg.1 htok).1
      have h1 : (pyStrip ℓ).head? ≠ some '#' := by
        rw [hstr]
        cases g with
        | nil => exact absurd rfl hg.1
        | cons t g' =>
          rw [renderLine_head g' (htok t (List.mem_cons_self _ _)).1]
          exact (hg.2 t (List.mem_cons_self _ _)).2.2
      rw [List.cons_append, import_lines, import_step_tags
          h0 h1 ⟨gtags, pre ++ [r]⟩ pre.length]
      show import_lines probe
          ⟨⟨pySetUnion gtags ((pySplitWs (pyStrip ℓ)).map pyStrip),
            listModify (pre ++ [r]) pre.length
              (fun f => {f with tags := pySetUnion f.tags ((pySplitWs (pyStrip ℓ)).map pyStrip)})⟩,
            false, true, some pre.length⟩ (ls' ++ rest) = _
      rw [hstr, pySplitWs_renderLine hg.1 htok, map_pyStrip_wsFree (fun t ht => (htok t ht).2),
          listModify_append_last,
          ih gs' rest (pySetUnion gtags g) pre {r with tags := pySetUnion r.tags g} htl
            (fun x hx => hgroups x (List.mem_cons_of_mem _ hx)),
          pySetUnion_append, pySetUnion_append, List.flatten_cons]

/-- Structure of the serialized tag block: the wrapped text splits on
newlines into lines whose stripped forms render consecutive groups of the
tokens, the groups concatenating back to the token list. -/
theorem wrapLines_struct {ts : List Str} (hne : ts ≠ [])
    (h : ∀ t ∈ ts, t ≠ [] ∧ wsFree t) :
    ∃ (ls : List Str) (groups : List (List Str)),
      pySplitOn '\n' (paragraph_wrap (pyJoinWith [' '] ts) 72) = ls ∧
      ls.map pyStrip = groups.map renderLine ∧
      groups.flatten = ts ∧
      (∀ g ∈ groups, g ≠ [] ∧ ∀ t ∈ g, t ≠ [] ∧ wsFree t) := by
  have htok : (pySplitOn ' ' (pyJoinWith [' '] ts)).filter (fun c => c.length > 0) = ts :=
    joinSpace_tokens hne h
  have hpar : paragraph_wrap (pyJoinWith [' '] ts) 72 =
      pyJoinWith ['\n'] (amendedWrapGo 72 ts [] [] true) := by
    have hfold := wrap_fold_go 72 ts [] [] true h
      (fun t ht => absurd ht (List.not_mem_nil t)) (fun _ => rfl)
    show pyJoinWith ['\n']
        (wrapFinish (((pySplitOn ' ' (pyJoinWith [' '] ts)).filter
          (fun c => c.length > 0)).foldl (wrapStep 72) ([], []))) = _
    rw [htok]
    exact congrArg (pyJoinWith ['\n']) hfold
  rcases amendedWrapGo_struct 72 ts [] [] true h
    (fun t ht => absurd ht (List.not_mem_nil t)) with
    ⟨ls, groups, h1, h2, h3, h4, h5⟩
  rw [List.nil_append] at h1
  rw [List.nil_append] at h3
  have hgne : groups ≠ [] := by
    intro hg
    rw [hg] at h3
    exact hne h3.symm
  have hlne : ls ≠ [] := by
    intro hl
    rw [hl] at h2
    exact hgne (List.map_eq_nil_iff.mp h2.symm)
  refine ⟨ls, groups, ?_, h2, h3, h4⟩
  rw [hpar, h1]
  exact pySplitOn_join hlne h5

/-- A well-formed record for the round trip: the path is stripped,
nonempty, newline-free and not comment-like; the tags are a duplicate-free
set of nonempty whitespace-free strings not starting with `#`; the
comments are stripped newline-free strings starting with `#`. -/
def WFrecord (f : FileRecord) : Prop :=
  pyStrip f.path = f.path ∧ f.path ≠ [] ∧ '\n' ∉ f.path ∧ f.path.head? ≠ some '#' ∧
  f.tags.Nodup ∧ (∀ t ∈ f.tags, t ≠ [] ∧ wsFree t ∧ t.head? ≠ some '#') ∧
  (∀ c ∈ f.comments, pyStrip c = c ∧ c.head? = some '#' ∧ '\n' ∉ c)

instance : DecidablePred WFrecord := fun f => by
  unfold WFrecord
  infer_instance

/-- The lines of the serialized block of one record. -/
def blockLines (f : FileRecord) : List Str :=
  f.path :: (f.comments ++
    (pySplitOn '\n' (paragraph_wrap (pyJoinWith [' '] (sortStrs f.tags)) 72) ++ [[]]))

/-- Parsing the serialized block of a well-formed record whose path is
fresh appends exactly the reparsed record and unions its sorted tags into
the global tag set. -/
theorem parse_block {probe : Str → Bool} {f : FileRecord}
    (pre : List FileRecord) (gtags rest : List Str) (r₀ : Option Nat)
    (hwf : WFrecord f)
    (hfresh : ∀ g ∈ pre, (g.path == f.path) = false) : import_lines
    probe ⟨⟨gtags, pre⟩, true, false, r₀⟩ (blockLines f ++ rest) = import_lines
      probe
        ⟨⟨pySetUnion gtags (sortStrs f.tags),
          pre ++ [⟨pre.length, f.path, probe f.path, f.comments, sortStrs f.tags⟩]⟩,
          true, false, some pre.length⟩ rest := by
  obtain ⟨hps, hpne, hpnl, hph, htnd, htags, hcom⟩ := hwf
  have hperm : List.Perm (sortStrs f.tags) f.tags := List.perm_insertionSort _ f.tags
  have hap : add_path probe ⟨gtags, pre⟩ (pyStrip f.path) =
      (⟨gtags, pre ++ [⟨pre.length, f.path, probe f.path, [], []⟩]⟩, pre.length) := by
    rw [hps]
    unfold add_path
    rw [List.findIdx?_eq_none_iff.mpr hfresh]
  have h1 : (pyStrip f.path).head? ≠ some '#' := by rw [hps]; exact hph
  have h0 : pyStrip f.path ≠ [] := by rw [hps]; exact hpne
  show import_lines probe ⟨⟨gtags, pre⟩, true, false, r₀⟩
    (f.path :: (f.comments ++
      (pySplitOn '\n' (paragraph_wrap (pyJoinWith [' '] (sortStrs f.tags)) 72) ++ [[]])
        ++ rest)) = _
  rw [import_lines, import_step_path h0 h1 hap false r₀]
  show import_lines probe
      ⟨⟨gtags, pre ++ [⟨pre.length, f.path, probe f.path, [], []⟩]⟩, false, true, some pre.length⟩
      (f.comments ++
        (pySplitOn '\n' (paragraph_wrap (pyJoinWith [' '] (sortStrs f.tags)) 72) ++ [[]])
          ++ rest) = _
  rw [List.append_assoc, parse_comment_lines f.comments _ gtags pre
    ⟨pre.length, f.path, probe f.path, [], []⟩ false
    (fun c hc => ⟨(hcom c hc).1, (hcom c hc).2.1⟩)]
  show import_lines probe
      ⟨⟨gtags, pre ++ [⟨pre.length, f.path, probe f.path, f.comments, []⟩]⟩,
        false, true, some pre.length⟩
      ((pySplitOn '\n' (paragraph_wrap (pyJoinWith [' '] (sortStrs f.tags)) 72) ++ [[]])
        ++ rest) = _
  by_cases htg : f.tags = []
  · rw [htg]
    show import_lines probe
        ⟨⟨gtags, pre ++ [⟨pre.length, f.path, probe f.path, f.comments, []⟩]⟩,
          false, true, some pre.length⟩
        ([] :: [] :: rest) = _
    rw [import_lines, import_step_blank (show pyStrip [] = [] from rfl)]
    show import_lines probe
        ⟨⟨gtags, pre ++ [⟨pre.length, f.path, probe f.path, f.comments, []⟩]⟩,
          true, false, some pre.length⟩
        ([] :: rest) = _
    rw [import_lines, import_step_blank (show pyStrip [] = [] from rfl)]
    rfl
  · have htsne : sortStrs f.tags ≠ [] := by
      intro h
      exact htg (by
        have := h ▸ hperm
        exact this.symm.eq_nil)
    have htok : ∀ t ∈ sortStrs f.tags, t ≠ [] ∧ wsFree t := by
      intro t ht
      have := htags t (hperm.subset ht)
      exact ⟨this.1, this.2.1⟩
    rcases wrapLines_struct htsne htok with ⟨ls, groups, heq, hmap, hflat, hgood⟩
    rw [heq, List.append_assoc,
        parse_tag_lines ls groups _ gtags pre
          ⟨pre.length, f.path, probe f.path, f.comments, []⟩ hmap
          (fun g hg => ⟨(hgood g hg).1, fun t ht => by
            have htm : t ∈ sortStrs f.tags := hflat ▸ List.mem_flatten_of_mem hg ht
            have := htags t (hperm.subset htm)
            exact ⟨this.1, this.2.1, this.2.2⟩⟩),
        hflat]
    show import_lines probe
        ⟨⟨pySetUnion gtags (sortStrs f.tags),
          pre ++ [⟨pre.length, f.path, probe f.path, f.comments,
            pySetUnion [] (sortStrs f.tags)⟩]⟩,
          false, true, some pre.length⟩
        ([] :: rest) = _
    rw [import_lines, import_step_blank (show pyStrip [] = [] from rfl),
        show pySetUnion [] (sortStrs f.tags) = sortStrs f.tags by
          rw [pySetUnion_eq_append (by
            rw [List.nil_append]
            exact hperm.nodup_iff.mpr htnd), List.nil_append]]

/-- The records produced by re-parsing the serialized blocks, ids assigned
positionally from `n`. -/
def reparseRecs (probe : Str → Bool) : Nat → List FileRecord → List FileRecord
  | _, [] => []
  | n, f :: fs =>
    ⟨n, f.path, probe f.path, f.comments, sortStrs f.tags⟩ :: reparseRecs probe (n + 1) fs

theorem parse_blocks {probe : Str → Bool} :
    ∀ (recs pre : List FileRecord) (gtags rest : List Str) (r₀ : Option Nat),
      (∀ f ∈ recs, WFrecord f) →
      (∀ f ∈ recs, ∀ g ∈ pre, (g.path == f.path) = false) →
      (recs.map (fun f => f.path)).Nodup →
      ∃ (gtags' : List Str) (r₁ : Option Nat), import_lines
        probe ⟨⟨gtags, pre⟩, true, false, r₀⟩
            (recs.flatMap blockLines ++ rest) = import_lines
          probe
            ⟨⟨gtags', pre ++ reparseRecs probe pre.length recs⟩, true, false, r₁⟩ rest := by
  intro recs
  induction recs with
  | nil =>
    intro pre gtags rest r₀ _ _ _
    refine ⟨gtags, r₀, ?_⟩
    rw [List.flatMap_nil, List.nil_append, reparseRecs, List.append_nil]
  | cons f fs ih =>
    intro pre gtags rest r₀ hwf hfresh hnd
    rw [List.flatMap_cons, List.append_assoc,
        parse_block pre gtags _ r₀ (hwf f (List.mem_cons_self _ _))
          (hfresh f (List.mem_cons_self _ _))]
    have hfresh' : ∀ f' ∈ fs,
        ∀ g ∈ pre ++ [(⟨pre.length, f.path, probe f.path, f.comments, sortStrs f.tags⟩ : FileRecord)],
          (g.path == f'.path) = false := by
      intro f' hf' g hg
      rcases List.mem_append.mp hg with hg | hg
      · exact hfresh f' (List.mem_cons_of_mem _ hf') g hg
      · rcases List.mem_singleton.mp hg with rfl
        show (f.path == f'.path) = false
        rw [beq_eq_false_iff_ne]
        intro he
        rw [List.map_cons, List.nodup_cons] at hnd
        exact hnd.1 (he ▸ List.mem_map_of_mem (fun x => x.path) hf')
    rcases ih (pre ++ [⟨pre.length, f.path, probe f.path, f.comments, sortStrs f.tags⟩])
      (pySetUnion gtags (sortStrs f.tags)) rest (some pre.length)
      (fun x hx => hwf x (List.mem_cons_of_mem _ hx)) hfresh'
      (by rw [List.map_cons, List.nodup_cons] at hnd; exact hnd.2) with ⟨gt2, r₂, hrun⟩
    refine ⟨gt2, r₂, ?_⟩
    rw [hrun, List.append_assoc]
    have hlen : (pre ++ [(⟨pre.length, f.path, probe f.path, f.comments, sortStrs f.tags⟩ : FileRecord)]).length = pre.length + 1 := by
      rw [List.length_append]
      rfl
    rw [hlen]
    rfl

theorem pySplitOn_cons_sep (sep : Char) (R : Str) :
    pySplitOn sep (sep :: R) = [] :: pySplitOn sep R := by
  rw [pySplitOn, splitOnAux_sep]
  rfl

theorem splitOn_comments :
    ∀ (cs : List Str) (R : Str), (∀ c ∈ cs, '\n' ∉ c) →
      pySplitOn '\n' (cs.flatMap (fun c => c ++ ['\n']) ++ R) =
        cs ++ pySplitOn '\n' R := by
  intro cs
  induction cs with
  | nil =>
    intro R _
    rw [List.flatMap_nil, List.nil_append, List.nil_append]
  | cons c cs' ih =>
    intro R h
    rw [List.flatMap_cons, List.append_assoc, List.append_assoc,
        List.singleton_append, pySplitOn_append,
        pySplitOn_no_sep (h c (List.mem_cons_self _ _)),
        ih R (fun x hx => h x (List.mem_cons_of_mem _ hx))]
    rfl

theorem splitOn_recordText :
    ∀ (recs : List FileRecord),
      (∀ f ∈ recs, '\n' ∉ f.path ∧ ∀ c ∈ f.comments, '\n' ∉ c) →
      pySplitOn '\n' (recs.flatMap recordText) =
        recs.flatMap blockLines ++ [[]] := by
  intro recs
  induction recs with
  | nil => intro _; rfl
  | cons f rest ih =>
    intro h
    have hf := h f (List.mem_cons_self _ _)
    rw [List.flatMap_cons]
    simp only [recordText]
    simp only [List.append_assoc, List.cons_append, List.nil_append]
    rw [pySplitOn_append, pySplitOn_no_sep hf.1,
        splitOn_comments _ _ hf.2, pySplitOn_append, pySplitOn_cons_sep,
        ih (fun x hx => h x (List.mem_cons_of_mem _ hx))]
    show (f.path :: (f.comments ++
        (pySplitOn '\n' (paragraph_wrap (pyJoinWith [' '] (sortStrs f.tags)) 72) ++
          ([] :: (rest.flatMap blockLines ++ [[]]))))) = _
    rw [List.flatMap_cons, blockLines]
    simp [List.append_assoc]

theorem sortStrs_idem (l : List Str) : sortStrs (sortStrs l) = sortStrs l :=
  List.Sorted.insertionSort_eq (List.sorted_insertionSort _ l)

theorem reparseRecs_map (probe : Str → Bool) :
    ∀ (recs : List FileRecord) (n : Nat),
      (reparseRecs probe n recs).map (fun f => (f.path, sortStrs f.tags, f.comments)) =
        recs.map (fun f => (f.path, sortStrs f.tags, f.comments)) := by
  intro recs
  induction recs with
  | nil => intro n; rfl
  | cons f fs ih =>
    intro n
    show (f.path, sortStrs (sortStrs f.tags), f.comments) :: _ = _
    rw [sortStrs_idem, ih (n + 1)]
    rfl

/-- A round-trippable index: every record is well formed and record paths
are pairwise distinct. -/
def WFindex (tfs : TagsForFiles) : Prop :=
  (∀ f ∈ tfs.file_records, WFrecord f) ∧
  (tfs.file_records.map (fun f => f.path)).Nodup

instance : DecidablePred WFindex := fun t => by
  unfold WFindex
  infer_instance

/-- A small well-formed index (records deliberately out of path order). -/
def c1Good : TagsForFiles :=
  ⟨[], [⟨0, "b".data, false, [], ["t2".data, "t1".data]⟩,
        ⟨1, "a".data, false, ["#c".data], ["z".data]⟩]⟩

/-- An index whose record carries a tag starting with `#`: legal for the
in-memory model, but its serialized form re-parses as a comment line. -/
def c1Bad : TagsForFiles :=
  ⟨["x".data, "#y".data], [⟨0, "p".data, false, [], ["x".data, "#y".data]⟩]⟩

/-- C1, corrected: the serialize / re-parse round trip holds for every
index whose record paths are stripped, nonempty, newline-free, not
`#`-initial and pairwise distinct, whose tags are duplicate-free sets of
nonempty whitespace-free strings not starting with `#`, and whose comments
are stripped newline-free strings starting with `#`: re-parsing the lines
written by `write_file_records_to_file` into a fresh index reproduces,
record by record in serialized (path-sorted) order, the same path, tag
set and comment list. -/
theorem C1_theorem (probe : Str → Bool) (tfs : TagsForFiles) (h : WFindex tfs) :
    ∃ tfs', import_text_data probe TagsForFiles.empty
        (pySplitOn '\n' (write_file_records tfs).2) = .ok tfs' ∧
      tfs'.file_records.map (fun f => (f.path, sortStrs f.tags, f.comments)) =
        (write_file_records tfs).1.file_records.map
          (fun f => (f.path, sortStrs f.tags, f.comments)) := by
  obtain ⟨hwf, hnd⟩ := h
  have hperm : List.Perm (tfs.file_records.insertionSort pathLe) tfs.file_records :=
    List.perm_insertionSort pathLe tfs.file_records
  have hwf' : ∀ f ∈ tfs.file_records.insertionSort pathLe, WFrecord f :=
    fun f hf => hwf f (hperm.subset hf)
  have hnd' : ((tfs.file_records.insertionSort pathLe).map (fun f => f.path)).Nodup :=
    ((hperm.map (fun f => f.path)).nodup_iff).mpr hnd
  have hsplit : pySplitOn '\n' (write_file_records tfs).2 =
      (tfs.file_records.insertionSort pathLe).flatMap blockLines ++ [[]] := by
    show pySplitOn '\n'
        ((tfs.file_records.insertionSort pathLe).flatMap recordText) = _
    exact splitOn_recordText _
      (fun f hf => ⟨(hwf' f hf).2.2.1,
        fun c hc => ((hwf' f hf).2.2.2.2.2.2 c hc).2.2⟩)
  rcases parse_blocks (tfs.file_records.insertionSort pathLe) [] [] [[]] none hwf'
    (fun f _ g hg => absurd hg (List.not_mem_nil g)) hnd' with ⟨gt, r₁, hrun⟩
  have hfin : import_lines probe
      ⟨⟨gt, ([] : List FileRecord) ++ reparseRecs probe
          ([] : List FileRecord).length (tfs.file_records.insertionSort pathLe)⟩,
        true, false, r₁⟩ [[]] =
      .ok ⟨⟨gt, reparseRecs probe 0 (tfs.file_records.insertionSort pathLe)⟩,
        true, false, r₁⟩ := by
    rw [import_lines, import_step_blank (show pyStrip [] = [] from rfl)]
    rfl
  refine ⟨⟨gt, reparseRecs probe 0 (tfs.file_records.insertionSort pathLe)⟩, ?_, ?_⟩
  · show (import_lines probe ⟨⟨[], []⟩, true, false, none⟩
        (pySplitOn '\n' (write_file_records tfs).2)).map (fun st => st.tfs) = _
    rw [hsplit, hrun, hfin]
    rfl
  · show (reparseRecs probe 0 (tfs.file_records.insertionSort pathLe)).map
        (fun f => (f.path, sortStrs f.tags, f.comments)) =
      (tfs.file_records.insertionSort pathLe).map
        (fun f => (f.path, sortStrs f.tags, f.comments))
    exact reparseRecs_map probe _ 0

/-- C1 witness: the round trip at a concrete two-record well-formed
index. -/
theorem C1_witness :
    WFindex c1Good ∧
    ∃ tfs', import_text_data (fun _ => false) TagsForFiles.empty
        (pySplitOn '\n' (write_file_records c1Good).2) = .ok tfs' ∧
      tfs'.file_records.map (fun f => (f.path, sortStrs f.tags, f.comments)) =
        (write_file_records c1Good).1.file_records.map
          (fun f => (f.path, sortStrs f.tags, f.comments)) :=
  ⟨by decide, C1_theorem (fun _ => false) c1Good (by decide)⟩

/-- C1 counterexample: for the index with the single record `p` tagged
`x` and `#y`, serialization writes the tag line `#y x`, which re-parses as
a comment: the reparsed record is `(p, ∅, ["#y x"])` instead of
`(p, {#y, x}, [])`, so the round trip fails for this index. -/
theorem C1_counterexample :
    (import_text_data (fun _ => false) TagsForFiles.empty
        (pySplitOn '\n' (write_file_records c1Bad).2)).toOption.map
      (fun t => t.file_records.map (fun f => (f.path, sortStrs f.tags, f.comments))) ≠
      some ((write_file_records c1Bad).1.file_records.map
        (fun f => (f.path, sortStrs f.tags, f.comments))) ∧
    (import_text_data (fun _ => false) TagsForFiles.empty
        (pySplitOn '\n' (write_file_records c1Bad).2)).toOption.map
      (fun t => t.file_records.map (fun f => (f.path, sortStrs f.tags, f.comments))) =
      some [("p".data, [], ["#y x".data])] ∧
    (write_file_records c1Bad).1.file_records.map
      (fun f => (f.path, sortStrs f.tags, f.comments)) =
      [("p".data, ["#y".data, "x".data], [])] := by
  refine ⟨by decide, by decide, by decide⟩
